import Mathlib

/-!
Verification development for the `winit-input-map` crate
(`src/input.rs`, `src/input_code.rs`, `src/lib.rs`).

Modelling conventions:
* `f32` is modelled by `F32`: an exact rational together with the three
  special values `inf`, `neginf` and `nan`.  Arithmetic on finite values is
  exact (no rounding, no overflow, a single zero); the special values follow
  the IEEE rules used by the source (`x / 0`, `is_finite`, comparisons with
  `nan` being false, Rust's `f32::max`/`f32::min` ignoring `nan`).
* Rust's `HashMap` is modelled by an association list.  `entry(k).or_default()`
  followed by a mutation is `alModify`; `get` is `alGet`; `get_mut` followed by
  a write is `alSet`.  The only operations the source performs on whole maps
  (`values_mut` iteration) act on each entry independently, so the list
  iteration order is irrelevant.
* Rust `Vec` indexing (`v[i]`) is modelled with `List.getD` / `List.set` /
  `listModify`.  The source panics on an out-of-range index; such indices are
  unreachable through the public API, and the model makes the operations total
  (`getD` returns a default, `set`/`listModify` leave the list unchanged).
* Opaque platform identifiers (`winit::event::DeviceId`, `gilrs::GamepadId`,
  `winit::keyboard::PhysicalKey`, `winit::event::MouseButton`) are modelled by
  `Nat`.
-/

/-! ## The float model -/

inductive F32 where
  | fin (q : ℚ)
  | inf
  | neginf
  | nan
deriving DecidableEq, Repr

namespace F32

def neg : F32 → F32
  | fin q => fin (-q)
  | inf => neginf
  | neginf => inf
  | nan => nan

def add : F32 → F32 → F32
  | nan, _ => nan
  | _, nan => nan
  | inf, neginf => nan
  | neginf, inf => nan
  | inf, _ => inf
  | _, inf => inf
  | neginf, _ => neginf
  | _, neginf => neginf
  | fin p, fin q => fin (p + q)

def sub (a b : F32) : F32 := add a (neg b)

def mul : F32 → F32 → F32
  | nan, _ => nan
  | _, nan => nan
  | fin p, fin q => fin (p * q)
  | inf, fin q => if q = 0 then nan else if 0 < q then inf else neginf
  | fin q, inf => if q = 0 then nan else if 0 < q then inf else neginf
  | neginf, fin q => if q = 0 then nan else if 0 < q then neginf else inf
  | fin q, neginf => if q = 0 then nan else if 0 < q then neginf else inf
  | inf, inf => inf
  | neginf, neginf => inf
  | inf, neginf => neginf
  | neginf, inf => neginf

def div : F32 → F32 → F32
  | nan, _ => nan
  | _, nan => nan
  | fin p, fin q =>
      if q = 0 then (if p = 0 then nan else if 0 < p then inf else neginf)
      else fin (p / q)
  | fin _, inf => fin 0
  | fin _, neginf => fin 0
  | inf, fin q => if 0 ≤ q then inf else neginf
  | neginf, fin q => if 0 ≤ q then neginf else inf
  | inf, inf => nan
  | inf, neginf => nan
  | neginf, inf => nan
  | neginf, neginf => nan

/-- Source `f32::is_finite`. -/
def isFinite : F32 → Bool
  | fin _ => true
  | _ => false

def isNan : F32 → Bool
  | nan => true
  | _ => false

/-- The rational carried by a finite value (`0` for the special values). -/
def toQ : F32 → ℚ
  | fin q => q
  | _ => 0

/-- The IEEE comparison `a >= b` (false whenever `nan` is involved). -/
def ge : F32 → F32 → Bool
  | nan, _ => false
  | _, nan => false
  | inf, _ => true
  | neginf, neginf => true
  | neginf, _ => false
  | fin _, inf => false
  | fin _, neginf => true
  | fin p, fin q => decide (q ≤ p)

/-- The IEEE comparison `a < b` (false whenever `nan` is involved). -/
def lt (a b : F32) : Bool := ge b a && !(ge a b)

/-- Rust's `f32::max`: if one argument is `nan`, the other is returned. -/
def max (a b : F32) : F32 :=
  if a.isNan then b else if b.isNan then a else if ge a b then a else b

/-- Rust's `f32::min`: if one argument is `nan`, the other is returned. -/
def min (a b : F32) : F32 :=
  if a.isNan then b else if b.isNan then a else if ge b a then a else b

instance : Neg F32 := ⟨F32.neg⟩
instance : Add F32 := ⟨F32.add⟩
instance : Sub F32 := ⟨F32.sub⟩
instance : Mul F32 := ⟨F32.mul⟩
instance : Div F32 := ⟨F32.div⟩

theorem add_def (a b : F32) : a + b = F32.add a b := rfl
theorem sub_def (a b : F32) : a - b = F32.sub a b := rfl
theorem mul_def (a b : F32) : a * b = F32.mul a b := rfl
theorem div_def (a b : F32) : a / b = F32.div a b := rfl

theorem fin_add_fin (p q : ℚ) : (fin p) + (fin q) = fin (p + q) := rfl
theorem fin_mul_fin (p q : ℚ) : (fin p) * (fin q) = fin (p * q) := rfl
theorem fin_sub_fin (p q : ℚ) : (fin p) - (fin q) = fin (p - q) := by
  show add (fin p) (neg (fin q)) = fin (p - q)
  simp [add, neg, sub_eq_add_neg]

theorem isFinite_iff (x : F32) : x.isFinite = true ↔ ∃ q, x = fin q := by
  cases x <;> simp [isFinite]

theorem ge_nan_left (b : F32) : ge nan b = false := by
  cases b <;> rfl

theorem ge_nan_right (a : F32) : ge a nan = false := by
  cases a <;> rfl

/-- The ratio `new / old` computed by the source is finite exactly when the
old finite value is nonzero (for a finite numerator). -/
theorem div_isFinite_fin (p q : ℚ) :
    ((fin p) / (fin q)).isFinite = true ↔ q ≠ 0 := by
  by_cases hq : q = 0
  · subst hq
    by_cases hp : p = 0 <;> by_cases hp' : 0 < p <;>
      simp [div_def, div, isFinite, hp, hp']
  · simp [div_def, div, isFinite, hq]

theorem div_fin_of_ne (p q : ℚ) (hq : q ≠ 0) : (fin p) / (fin q) = fin (p / q) := by
  simp [div_def, div, hq]

theorem div_not_finite_zero (x : F32) : (x / (fin 0)).isFinite = false := by
  cases x with
  | fin p =>
      by_cases hp : p = 0 <;> by_cases hp' : 0 < p <;>
        simp [div_def, div, isFinite, hp, hp']
  | inf => simp [div_def, div, isFinite]
  | neginf => simp [div_def, div, isFinite]
  | nan => simp [div_def, div, isFinite]

theorem ge_false_of_isNan (a b : F32) (h : a.isNan = true) : ge a b = false := by
  cases a <;> simp [isNan] at h ⊢
  cases b <;> rfl

theorem ge_fin_zero_false_of_lt (s : F32) (h : lt (fin 0) s = true) :
    ge (fin 0) s = false := by
  cases s <;> simp [lt, ge] at h ⊢
  exact h.2
end F32

/-! ## Association lists (model of `std::collections::HashMap`) -/

section AList
variable {K V : Type} [DecidableEq K]

/-- Source `HashMap::get`. -/
def alGet : List (K × V) → K → Option V
  | [], _ => none
  | p :: rest, k => if p.1 = k then some p.2 else alGet rest k

/-- Source `HashMap::get_mut` followed by overwriting the entry (no effect when the
key is absent; the source only does this for keys known to be present). -/
def alSet : List (K × V) → K → V → List (K × V)
  | [], _, _ => []
  | p :: rest, k, v => if p.1 = k then (p.1, v) :: rest else p :: alSet rest k v

/-- Source `HashMap::entry(k).or_default()` followed by a mutation `f` of the entry. -/
def alModify (dflt : V) (f : V → V) : List (K × V) → K → List (K × V)
  | [], k => [(k, f dflt)]
  | p :: rest, k => if p.1 = k then (p.1, f p.2) :: rest else p :: alModify dflt f rest k

theorem alGet_alSet_self (l : List (K × V)) (k : K) (v w : V)
    (h : alGet l k = some w) : alGet (alSet l k v) k = some v := by
  induction l with
  | nil => simp [alGet] at h
  | cons p rest ih =>
      by_cases hk : p.1 = k
      · simp [alGet, alSet, hk]
      · simp [alGet, alSet, hk] at h ⊢
        exact ih h

theorem alGet_alSet_ne (l : List (K × V)) (k k' : K) (v : V) (h : k' ≠ k) :
    alGet (alSet l k v) k' = alGet l k' := by
  induction l with
  | nil => rfl
  | cons p rest ih =>
      simp only [alSet]
      by_cases hk : p.1 = k
      · subst hk
        have hne : ¬ p.1 = k' := fun h' => h (Eq.symm h')
        simp [alGet, hne]
      · simp only [if_neg hk, alGet, ih]

theorem alGet_alSet_none (l : List (K × V)) (k : K) (v : V)
    (h : alGet l k = none) : alSet l k v = l := by
  induction l with
  | nil => rfl
  | cons p rest ih =>
      by_cases hk : p.1 = k
      · simp [alGet, hk] at h
      · simp [alGet, hk] at h
        simp [alSet, hk, ih h]

theorem alGet_alModify_self (dflt : V) (f : V → V) (l : List (K × V)) (k : K) :
    alGet (alModify dflt f l k) k = some (f ((alGet l k).getD dflt)) := by
  induction l with
  | nil => simp [alGet, alModify]
  | cons p rest ih =>
      by_cases hk : p.1 = k
      · simp [alGet, alModify, hk]
      · simp [alGet, alModify, hk, ih]

theorem alGet_alModify_ne (dflt : V) (f : V → V) (l : List (K × V)) (k k' : K)
    (h : k' ≠ k) : alGet (alModify dflt f l k) k' = alGet l k' := by
  induction l with
  | nil => simp [alGet, alModify, Ne.symm h]
  | cons p rest ih =>
      simp only [alModify]
      by_cases hk : p.1 = k
      · subst hk
        have hne : ¬ p.1 = k' := fun h' => h (Eq.symm h')
        simp [alGet, hne]
      · simp only [if_neg hk, alGet, ih]

end AList

/-! ## List indexing helpers (model of `Vec` index mutation) -/

/-- In-place mutation `v[i] = f(v[i])` (no-op out of range; the source would
panic there, and such indices are unreachable through the public API). -/
def listModify {α : Type} (f : α → α) : Nat → List α → List α
  | _, [] => []
  | 0, x :: rest => f x :: rest
  | n + 1, x :: rest => x :: listModify f n rest

theorem listModify_append_last {α : Type} (f : α → α) (p : List α) (x : α) :
    listModify f p.length (p ++ [x]) = p ++ [f x] := by
  induction p with
  | nil => rfl
  | cons y rest ih => simp [listModify, ih]

theorem getD_set_self {α : Type} (l : List α) (i : Nat) (v d : α) (h : i < l.length) :
    (l.set i v).getD i d = v := by
  induction l generalizing i with
  | nil => simp at h
  | cons x rest ih =>
      cases i with
      | zero => rfl
      | succ n =>
          simp only [List.set, List.getD, List.get?]
          exact ih n (by simpa using h)

theorem getD_set_ne {α : Type} (l : List α) (i j : Nat) (v d : α) (h : j ≠ i) :
    (l.set i v).getD j d = l.getD j d := by
  induction l generalizing i j with
  | nil => simp
  | cons x rest ih =>
      cases i with
      | zero =>
          cases j with
          | zero => exact absurd rfl h
          | succ m => rfl
      | succ n =>
          cases j with
          | zero => rfl
          | succ m =>
              simp only [List.set, List.getD, List.get?]
              exact ih n m (fun hc => h (by omega))

theorem getD_pos_of_lt {α : Type} (l : List α) (i : Nat) (d : α) (h : i < l.length) :
    l.getD i d = l.get ⟨i, h⟩ := by
  induction l generalizing i with
  | nil => simp at h
  | cons x rest ih =>
      cases i with
      | zero => rfl
      | succ n => exact ih n (by simpa using h)

/-! ## Input identity taxonomy (`src/input_code.rs`) -/

/-- Source `DeviceInput` from `src/input_code.rs` (mouse-button and physical-key
payloads are opaque platform values, modelled by `Nat`). -/
inductive DeviceInput where
  | Button (b : Nat)
  | Key (k : Nat)
  | MouseMoveLeft
  | MouseMoveRight
  | MouseMoveUp
  | MouseMoveDown
  | MouseScrollUp
  | MouseScrollDown
  | MouseScrollLeft
  | MouseScrollRight
deriving DecidableEq, Repr

/-- Source `SpecifyDevice` (the `DeviceId` payload is opaque, modelled by `Nat`). -/
inductive SpecifyDevice where
  | Id (id : Nat)
  | Any
deriving DecidableEq, Repr

/-- Source `SpecifyGamepad` (the `GamepadId` payload is opaque, modelled by `Nat`). -/
inductive SpecifyGamepad where
  | Id (id : Nat)
  | Any
deriving DecidableEq, Repr

/-- Source `GamepadInput` from `src/input_code.rs`, all 28 variants. -/
inductive GamepadInput where
  | LeftStickLeft
  | LeftStickRight
  | LeftStickUp
  | LeftStickDown
  | LeftStickPress
  | RightStickLeft
  | RightStickRight
  | RightStickUp
  | RightStickDown
  | RightStickPress
  | DPadLeft
  | DPadRight
  | DPadUp
  | DPadDown
  | LeftZ
  | RightZ
  | South
  | East
  | North
  | West
  | LeftBumper
  | LeftTrigger
  | RightBumper
  | RightTrigger
  | Select
  | Start
  | Mode
  | Other
deriving DecidableEq, Repr

/-- Source `InputCode` from `src/input_code.rs`. -/
inductive InputCode where
  | Device (id : SpecifyDevice) (input : DeviceInput)
  | Gamepad (id : SpecifyGamepad) (input : GamepadInput)
deriving DecidableEq, Repr

/-- Source `InputCode::set_any`: sets the scope to the wildcard (the `From` impls
`input.into()` used by the source produce the `Any` scope). -/
def InputCode.set_any : InputCode → InputCode
  | .Gamepad _ input => .Gamepad SpecifyGamepad.Any input
  | .Device _ input => .Device SpecifyDevice.Any input

/-- Source `InputCode::is_any`. -/
def InputCode.is_any : InputCode → Bool
  | .Gamepad id _ => decide (id = SpecifyGamepad.Any)
  | .Device id _ => decide (id = SpecifyDevice.Any)

/-- Source `DeviceInput::with_id`. -/
def DeviceInput.with_id (input : DeviceInput) (id : Nat) : InputCode :=
  .Device (SpecifyDevice.Id id) input

/-- Source `GamepadInput::with_id`. -/
def GamepadInput.with_id (input : GamepadInput) (id : Nat) : InputCode :=
  .Gamepad (SpecifyGamepad.Id id) input

/-- Source `From<DeviceInput> for InputCode` (wildcard scope). -/
def DeviceInput.toCode (input : DeviceInput) : InputCode :=
  .Device SpecifyDevice.Any input

/-- Source `From<GamepadInput> for InputCode` (wildcard scope). -/
def GamepadInput.toCode (input : GamepadInput) : InputCode :=
  .Gamepad SpecifyGamepad.Any input

/-! gilrs collaborator types used by `update_gamepad` (buttons/axes whose
variants appear in `src/input_code.rs`). -/

/-- Source `gilrs::Button` (the variants consumed by `From<Button> for GamepadInput`). -/
inductive GilrsButton where
  | South | East | North | West
  | LeftTrigger | LeftTrigger2 | RightTrigger | RightTrigger2
  | DPadUp | DPadDown | DPadLeft | DPadRight
  | Z | C
  | Select | Start | Mode
  | RightThumb | LeftThumb
  | Unknown
deriving DecidableEq, Repr

/-- Source `gilrs::Axis`. -/
inductive GilrsAxis where
  | LeftStickX | LeftStickY | RightStickX | RightStickY
  | LeftZ | RightZ | DPadX | DPadY | Unknown
deriving DecidableEq, Repr

/-- Source `From<Button> for GamepadInput` from `src/input_code.rs`. -/
def buttonToGamepadInput : GilrsButton → GamepadInput
  | .South => .South
  | .East => .East
  | .North => .North
  | .West => .West
  | .LeftTrigger => .LeftBumper
  | .LeftTrigger2 => .LeftTrigger
  | .RightTrigger2 => .RightTrigger
  | .RightTrigger => .RightBumper
  | .DPadUp => .DPadUp
  | .DPadDown => .DPadDown
  | .DPadLeft => .DPadLeft
  | .DPadRight => .DPadRight
  | .Z => .RightZ
  | .C => .LeftZ
  | .Select => .Select
  | .Start => .Start
  | .Mode => .Mode
  | .RightThumb => .RightStickPress
  | .LeftThumb => .LeftStickPress
  | .Unknown => .Other

/-- Source `axis_neg` from `src/input_code.rs`. -/
def axis_neg : GilrsAxis → GamepadInput
  | .LeftStickX => .LeftStickLeft
  | .LeftStickY => .LeftStickDown
  | .RightStickX => .RightStickLeft
  | .RightStickY => .RightStickDown
  | .LeftZ => .LeftZ
  | .RightZ => .RightZ
  | .DPadX => .DPadLeft
  | .DPadY => .DPadDown
  | .Unknown => .Other

/-- Source `axis_pos` from `src/input_code.rs`. -/
def axis_pos : GilrsAxis → GamepadInput
  | .LeftStickX => .LeftStickRight
  | .LeftStickY => .LeftStickUp
  | .RightStickX => .RightStickRight
  | .RightStickY => .RightStickUp
  | .LeftZ => .LeftZ
  | .RightZ => .RightZ
  | .DPadX => .DPadRight
  | .DPadY => .DPadUp
  | .Unknown => .Other

/-! ## The input map (`src/input.rs`) -/

/-- Source `ActionValue` — the tuple `(f32, bool, bool, Vec<(f32, Vec<f32>)>)`:
current value, pressed flag, released flag, and per-binding
`(contribution, slot values)` pairs. -/
structure ActionValue where
  value : F32
  pressed : Bool
  released : Bool
  sub_values : List (F32 × List F32)
deriving DecidableEq, Repr

/-- Source `Default` for `ActionValue` (`(0.0, false, false, vec![])`). -/
def ActionValue.dflt : ActionValue := ⟨F32.fin 0, false, false, []⟩

/-- Source `Binds<F>` — the type alias `Vec<(F, Vec<Vec<InputCode>>)>`. -/
abbrev Binds (F : Type) : Type := List (F × List (List InputCode))

/-- The `InputMap` struct (all features enabled, so every field is present). -/
structure InputMap (F : Type) where
  bind_hash : List (InputCode × List (F × Nat × Nat))
  action_val : List (F × ActionValue)
  focus : Bool
  mouse_pos : F32 × F32
  recently_pressed : Option InputCode
  text_typed : Option String
  mouse_scale : F32
  scroll_scale : F32
  press_sensitivity : F32
deriving DecidableEq, Repr

variable {F : Type} [DecidableEq F]

/-- Source `Default for InputMap<F>`. -/
def InputMap.dflt : InputMap F :=
  { bind_hash := []
    action_val := []
    focus := true
    mouse_pos := (F32.fin 0, F32.fin 0)
    recently_pressed := none
    text_typed := none
    mouse_scale := F32.fin (1 / 100)
    scroll_scale := F32.fin 1
    press_sensitivity := F32.fin (1 / 2) }

/-- Source `.3.push((0.0, vec![]))` on an `ActionValue`. -/
def avPushBind (av : ActionValue) : ActionValue :=
  { av with sub_values := av.sub_values ++ [(F32.fin 0, [])] }

/-- Source `.3[bind_i].1.push(0.0)` on an `ActionValue`. -/
def avPushSlot (bind_i : Nat) (av : ActionValue) : ActionValue :=
  { av with sub_values :=
      listModify (fun p => (p.1, p.2 ++ [F32.fin 0])) bind_i av.sub_values }

/-- Source `self.action_val.entry(*action).or_default().3.push((0.0, vec![]))`. -/
def pushNewBind (a : F) (m : InputMap F) : InputMap F :=
  { m with action_val := alModify ActionValue.dflt avPushBind m.action_val a }

/-- Source `self.action_val.entry(*action).or_default().3[bind_i].1.push(0.0)`. -/
def pushSlot (a : F) (bind_i : Nat) (m : InputMap F) : InputMap F :=
  { m with action_val := alModify ActionValue.dflt (avPushSlot bind_i) m.action_val a }

/-- Source `self.bind_hash.entry(*code).or_default().push((*action, bind_i, code_i))`. -/
def registerCode (code : InputCode) (a : F) (bind_i code_i : Nat)
    (m : InputMap F) : InputMap F :=
  let f := fun (l : List (F × Nat × Nat)) => l ++ [(a, bind_i, code_i)]
  { m with bind_hash := alModify [] f m.bind_hash code }

/-- The inner `for (code_i, code) in bind.iter().enumerate()` loop of
`add_binds`. -/
def addBindCodes (a : F) (bind_i : Nat) : Nat → List InputCode → InputMap F → InputMap F
  | _, [], m => m
  | code_i, code :: rest, m =>
      addBindCodes a bind_i (code_i + 1) rest
        (registerCode code a bind_i code_i (pushSlot a bind_i m))

/-- The middle `for (bind_i, bind) in binds.iter().enumerate()` loop of
`add_binds`. -/
def addActionBinds (a : F) : Nat → List (List InputCode) → InputMap F → InputMap F
  | _, [], m => m
  | bind_i, bind :: rest, m =>
      addActionBinds a (bind_i + 1) rest
        (addBindCodes a bind_i 0 bind (pushNewBind a m))

/-- Source `InputMap::add_binds` (the trailing `shrink_to_fit` calls do not change
the contents). -/
def InputMap.add_binds : Binds F → InputMap F → InputMap F
  | [], m => m
  | (a, bl) :: rest, m => InputMap.add_binds rest (addActionBinds a 0 bl m)

/-- Source `InputMap::set_binds`: `self.bind_hash.clear(); self.add_binds(binds)`. -/
def InputMap.set_binds (binds : Binds F) (m : InputMap F) : InputMap F :=
  InputMap.add_binds binds { m with bind_hash := [] }

/-- Source `InputMap::new`. -/
def InputMap.new (binds : Binds F) : InputMap F :=
  InputMap.add_binds binds InputMap.dflt

/-- Source `fold(1.0, |a, b| a * b)` over a slot vector. -/
def listProd (l : List F32) : F32 := l.foldl (fun a b => a * b) (F32.fin 1)

/-- Source `old_sub_sub_val`: the cached raw value at slot `sub_index` of binding
`index` (line 318 of `src/input.rs`). -/
def oldSlot (av : ActionValue) (index sub_index : Nat) : F32 :=
  (av.sub_values.getD index (F32.fin 0, [])).2.getD sub_index (F32.fin 0)

/-- The slot vector after the overwrite
`sub_values[index].1[sub_index] = new_sub_sub_val` (line 321). -/
def newSlots (f : F32 → F32) (av : ActionValue) (index sub_index : Nat) : List F32 :=
  (av.sub_values.getD index (F32.fin 0, [])).2.set sub_index (f (oldSlot av index sub_index))

/-- Source `new_sub_val` (lines 320, 324–325): the ratio update when
`change = new_sub_sub_val / old_sub_sub_val` is finite, otherwise the product
of the (already overwritten) slot values. -/
def newSubVal (f : F32 → F32) (av : ActionValue) (index sub_index : Nat) : F32 :=
  if (f (oldSlot av index sub_index) / oldSlot av index sub_index).isFinite
  then (av.sub_values.getD index (F32.fin 0, [])).1
        * (f (oldSlot av index sub_index) / oldSlot av index sub_index)
  else listProd (newSlots f av index sub_index)

/-- The body of the `for &(action, index, sub_index) in binds` loop of
`modify_single_val`, acting on one `ActionValue` (lines 316–336 of
`src/input.rs`). -/
def stepAV (sens : F32) (f : F32 → F32) (index sub_index : Nat)
    (av : ActionValue) : ActionValue :=
  let new_sub_val := newSubVal f av index sub_index
  let sub_value := (av.sub_values.getD index (F32.fin 0, [])).1
  let curr_val := av.value + (new_sub_val - sub_value)
  let now_pressing := F32.ge curr_val sens
  { value := curr_val
    pressed := now_pressing && !av.pressed
    released := !now_pressing && av.pressed
    sub_values := av.sub_values.set index (new_sub_val, newSlots f av index sub_index) }

/-- One iteration of the subscription loop of `modify_single_val`: mutate the
(`unwrap`ped) action state and possibly record `recently_pressed`.  When the
action is absent the source panics; that case is unreachable through the
public API and is modelled as a no-op. -/
def subStep (code : InputCode) (f : F32 → F32) (m : InputMap F)
    (t : F × Nat × Nat) : InputMap F :=
  match alGet m.action_val t.1 with
  | none => m
  | some av =>
      let av' := stepAV m.press_sensitivity f t.2.1 t.2.2 av
      let now_pressing := F32.ge av'.value m.press_sensitivity
      { m with
        action_val := alSet m.action_val t.1 av'
        recently_pressed :=
          if now_pressing && !code.is_any then some code else m.recently_pressed }

/-- The subscription loop of `modify_single_val`. -/
def runTriples (code : InputCode) (f : F32 → F32) :
    List (F × Nat × Nat) → InputMap F → InputMap F
  | [], m => m
  | t :: rest, m => runTriples code f rest (subStep code f m t)

/-- Source `InputMap::modify_single_val`. -/
def InputMap.modify_single_val (code : InputCode) (f : F32 → F32)
    (m : InputMap F) : InputMap F :=
  match alGet m.bind_hash code with
  | none =>
      if F32.ge (f (F32.fin 0)) m.press_sensitivity && !code.is_any
      then { m with recently_pressed := some code } else m
  | some binds => runTriples code f binds m

/-- Source `InputMap::modify_val`: apply under the given identity and then under its
wildcard form. -/
def InputMap.modify_val (code : InputCode) (f : F32 → F32)
    (m : InputMap F) : InputMap F :=
  (m.modify_single_val code f).modify_single_val code.set_any f

/-- Source `InputMap::update_val`. -/
def InputMap.update_val (code : InputCode) (val : F32) (m : InputMap F) : InputMap F :=
  m.modify_val code (fun _ => val)

/-- Source `InputMap::value`. -/
def InputMap.value (m : InputMap F) (action : F) : F32 :=
  match alGet m.action_val action with
  | some av => av.value
  | none => F32.fin 0

/-- Source `InputMap::pressing`. -/
def InputMap.pressing (m : InputMap F) (action : F) : Bool :=
  F32.ge (m.value action) m.press_sensitivity

/-- Source `InputMap::pressed`. -/
def InputMap.pressed (m : InputMap F) (action : F) : Bool :=
  match alGet m.action_val action with
  | some av => av.pressed
  | none => false

/-- Source `InputMap::released`. -/
def InputMap.released (m : InputMap F) (action : F) : Bool :=
  match alGet m.action_val action with
  | some av => av.released
  | none => false

/-- Source `InputMap::axis`. -/
def InputMap.axis (m : InputMap F) (pos neg : F) : F32 :=
  m.value pos - m.value neg

/-- The array of relative-delta inputs reset by `init`, in source order. -/
def initResetInputs : List DeviceInput :=
  [DeviceInput.MouseMoveLeft, DeviceInput.MouseMoveRight,
   DeviceInput.MouseMoveUp, DeviceInput.MouseMoveDown,
   DeviceInput.MouseScrollUp, DeviceInput.MouseScrollDown,
   DeviceInput.MouseScrollLeft, DeviceInput.MouseScrollRight]

/-- The `for i in [...] { self.update_val(i.into(), 0.0) }` loop of `init`. -/
def resetVals : List InputCode → InputMap F → InputMap F
  | [], m => m
  | c :: rest, m => resetVals rest (m.update_val c (F32.fin 0))

/-- The per-entry effect of
`self.action_val.values_mut().for_each(|(_, p, r, _)| (*p, *r) = (false, false))`. -/
def clearFlags (av : ActionValue) : ActionValue :=
  { av with pressed := false, released := false }

/-- Source `InputMap::init`. -/
def InputMap.init (m : InputMap F) : InputMap F :=
  let m := resetVals (initResetInputs.map DeviceInput.toCode) m
  { m with
    action_val := m.action_val.map (fun p => (p.1, clearFlags p.2))
    recently_pressed := none
    text_typed := none }

/-- The per-entry effect of the `Focused(false)` loop (lines 234–237 of
`src/input.rs`): zero every binding contribution, every slot value and the
aggregate value; the flags are untouched. -/
def clearVals (av : ActionValue) : ActionValue :=
  { av with
    value := F32.fin 0
    sub_values := av.sub_values.map (fun i => (F32.fin 0, i.2.map (fun _ => F32.fin 0))) }

/-- The `WindowEvent::Focused` arms of `update_with_window_event`
(lines 233–241 of `src/input.rs`); the other arms dispatch to the mouse,
scroll, button and key helpers and do not touch the fields below. -/
def InputMap.update_focused (b : Bool) (m : InputMap F) : InputMap F :=
  if b then { m with focus := true }
  else
    { m with
      action_val := m.action_val.map (fun p => (p.1, clearVals p.2))
      focus := false }

/-- Source `DeviceEvent::MouseMotion` handling in `update_with_device_event`
(`delta` is `(f64, f64)`, modelled exactly). -/
def InputMap.update_mouse_motion (id : Nat) (dx dy : ℚ) (m : InputMap F) : InputMap F :=
  let x := F32.fin dx * m.mouse_scale
  let y := F32.fin dy * m.mouse_scale
  let m := m.modify_val (DeviceInput.MouseMoveRight.with_id id)
    (fun v => v + F32.max x (F32.fin 0))
  let m := m.modify_val (DeviceInput.MouseMoveLeft.with_id id)
    (fun v => v - F32.min x (F32.fin 0))
  let m := m.modify_val (DeviceInput.MouseMoveDown.with_id id)
    (fun v => v + F32.max y (F32.fin 0))
  m.modify_val (DeviceInput.MouseMoveUp.with_id id)
    (fun v => v - F32.min y (F32.fin 0))

/-- The list iterated by the `EventType::Disconnected` arm of
`update_gamepad`, in source order (all 28 gamepad inputs). -/
def disconnectInputs : List GamepadInput :=
  [GamepadInput.LeftStickLeft, GamepadInput.LeftStickRight,
   GamepadInput.LeftStickUp, GamepadInput.LeftStickDown,
   GamepadInput.LeftStickPress, GamepadInput.RightStickLeft,
   GamepadInput.RightStickRight, GamepadInput.RightStickUp,
   GamepadInput.RightStickDown, GamepadInput.RightStickPress,
   GamepadInput.DPadLeft, GamepadInput.DPadRight, GamepadInput.DPadUp,
   GamepadInput.DPadDown, GamepadInput.LeftZ, GamepadInput.RightZ,
   GamepadInput.South, GamepadInput.East, GamepadInput.North,
   GamepadInput.West, GamepadInput.LeftBumper, GamepadInput.LeftTrigger,
   GamepadInput.RightBumper, GamepadInput.RightTrigger, GamepadInput.Select,
   GamepadInput.Start, GamepadInput.Mode, GamepadInput.Other]

/-- The `for i in [...] { self.update_val(i.with_id(id), 0.0) }` loop of the
`Disconnected` arm. -/
def resetGamepadVals (id : Nat) : List GamepadInput → InputMap F → InputMap F
  | [], m => m
  | i :: rest, m => resetGamepadVals id rest (m.update_val (i.with_id id) (F32.fin 0))

/-- Source `gilrs::ev::EventType` (the arms consumed by `update_gamepad`; every
other event kind falls into the wildcard arm). -/
inductive GilrsEventType where
  | ButtonChanged (b : GilrsButton) (v : F32)
  | AxisChanged (b : GilrsAxis) (v : F32)
  | Disconnected
  | OtherEvent
deriving Repr

/-- Source `InputMap::update_gamepad`. -/
def InputMap.update_gamepad (id : Nat) (event : GilrsEventType)
    (m : InputMap F) : InputMap F :=
  match event with
  | .ButtonChanged b v => m.update_val ((buttonToGamepadInput b).with_id id) v
  | .AxisChanged b v =>
      let dir_pos := F32.max v (F32.fin 0)
      let dir_neg := F32.max (-v) (F32.fin 0)
      let m := m.update_val ((axis_pos b).with_id id) dir_pos
      m.update_val ((axis_neg b).with_id id) dir_neg
  | .Disconnected => resetGamepadVals id disconnectInputs m
  | .OtherEvent => m

/-- The cached raw value of slot `j` of binding `i` of `action` (reads as
`0.0` for an absent action or an out-of-range index). -/
def slotValue (m : InputMap F) (action : F) (i j : Nat) : F32 :=
  match alGet m.action_val action with
  | some av => (av.sub_values.getD i (F32.fin 0, [])).2.getD j (F32.fin 0)
  | none => F32.fin 0

/-- The cached contribution of binding `i` of `action` (reads as `0.0` for an
absent action or an out-of-range index). -/
def contribValue (m : InputMap F) (action : F) (i : Nat) : F32 :=
  match alGet m.action_val action with
  | some av => (av.sub_values.getD i (F32.fin 0, [])).1
  | none => F32.fin 0

/-- The naive reference of the spec: the sum over an action's bindings of the
product of that binding's cached slot values. -/
def recompute (m : InputMap F) (action : F) : F32 :=
  match alGet m.action_val action with
  | some av => (av.sub_values.map (fun p => listProd p.2)).foldl
      (fun x y => x + y) (F32.fin 0)
  | none => F32.fin 0

/-- A finite sequence of `apply` events, fed through `update_val`. -/
def applyAll (evs : List (InputCode × F32)) (m : InputMap F) : InputMap F :=
  evs.foldl (fun m e => m.update_val e.1 e.2) m

/-- Source `f32::EPSILON` (`2^-23`). -/
def f32_epsilon : ℚ := 1 / 2 ^ 23

/-! ## Concrete maps used by the counterexamples and witnesses -/

/-- An action (`Jump = 0`) with two one-slot bindings, `[Space]` and
`[GamepadSouth]`, both declared under the wildcard scope. -/
def exJumpBinds : Binds Nat :=
  [(0, [[InputCode.Device SpecifyDevice.Any (DeviceInput.Key 32)],
        [InputCode.Gamepad SpecifyGamepad.Any GamepadInput.South]])]

def exJump0 : InputMap Nat := InputMap.new exJumpBinds

/-- Source `apply(Space, 1.0)` from keyboard device 3. -/
def exJump1 : InputMap Nat := exJump0.update_val ((DeviceInput.Key 32).with_id 3) (F32.fin 1)

/-- Same tick, `apply(GamepadSouth, 1.0)` from gamepad 0. -/
def exJump2 : InputMap Nat := exJump1.update_val (GamepadInput.South.with_id 0) (F32.fin 1)

/-- A platform-supplied `NaN` on the gamepad south button. -/
def exNaN1 : InputMap Nat :=
  exJump0.update_gamepad 0 (GilrsEventType.ButtonChanged GilrsButton.South F32.nan)

/-- One action bound to the single key `Key 1` (wildcard scope). -/
def exKeyBinds : Binds Nat :=
  [(0, [[InputCode.Device SpecifyDevice.Any (DeviceInput.Key 1)]])]

def exKey0 : InputMap Nat := InputMap.new exKeyBinds

/-- An apply of the sub-epsilon value `2^-30`. -/
def exEps1 : InputMap Nat :=
  exKey0.update_val ((DeviceInput.Key 1).with_id 0) (F32.fin (1 / 2 ^ 30))

/-- Source `add_binds` of two further bindings for the action that `exKey0` already
binds (the scenario of the `binds!` doc example in `src/lib.rs`). -/
def exC7add : InputMap Nat :=
  InputMap.add_binds
    [(0, [[InputCode.Device SpecifyDevice.Any (DeviceInput.Button 0)],
          [InputCode.Device SpecifyDevice.Any (DeviceInput.Key 2)]])] exKey0

def exC8press : InputMap Nat :=
  exKey0.update_val ((DeviceInput.Key 1).with_id 7) (F32.fin 1)

/-- Source `set_binds` with an empty bind list after the action became pressing. -/
def exC8set : InputMap Nat := exC8press.set_binds []

/-- An action bound to `MouseMoveRight` of the specific device 5. -/
def exMouseSpecBinds : Binds Nat :=
  [(0, [[InputCode.Device (SpecifyDevice.Id 5) DeviceInput.MouseMoveRight]])]

/-- Mouse motion `(230, 0)` from device 5, at the default scale `0.01`. -/
def exMouseSpec1 : InputMap Nat :=
  (InputMap.new exMouseSpecBinds).update_mouse_motion 5 230 0

/-- An action bound to the wildcard form of `MouseMoveRight`. -/
def exMouseAnyBinds : Binds Nat :=
  [(1, [[InputCode.Device SpecifyDevice.Any DeviceInput.MouseMoveRight]])]

def exMouseAny1 : InputMap Nat :=
  (InputMap.new exMouseAnyBinds).update_mouse_motion 5 230 0

/-- An action bound to the wildcard (any-controller) south button. -/
def exPadBinds : Binds Nat :=
  [(0, [[InputCode.Gamepad SpecifyGamepad.Any GamepadInput.South]])]

def exPad0 : InputMap Nat := InputMap.new exPadBinds

/-- South pressed on controller 1. -/
def exPad1 : InputMap Nat :=
  exPad0.update_gamepad 1 (GilrsEventType.ButtonChanged GilrsButton.South (F32.fin 1))

/-- South pressed on controller 2 as well. -/
def exPad2 : InputMap Nat :=
  exPad1.update_gamepad 2 (GilrsEventType.ButtonChanged GilrsButton.South (F32.fin 1))

/-- Controller 1 disconnects. -/
def exPad3 : InputMap Nat := exPad2.update_gamepad 1 GilrsEventType.Disconnected

attribute [local semireducible] Rat.add Rat.mul Rat.sub Rat.inv

/-! ## Claim C1 -/

/-- C1 counterexample: `Jump` is bound to the two one-slot bindings `[Space]`
and `[GamepadSouth]`.  `apply(Space, 1.0)` makes the action pressing with
`pressed = true`; in the same tick `apply(GamepadSouth, 1.0)` raises the value
to `2.0` and the action keeps pressing, but `pressed(Jump)` drops to `false`:
the stored was-pressing state is not updated to `now_pressing` (the source
stores the fresh `pressed` edge flag instead), so the edge is lost, contrary
to the claim. -/
theorem claim1_counterexample :
    exJump1.pressed 0 = true ∧ exJump1.pressing 0 = true ∧
    exJump2.value 0 = F32.fin 2 ∧ exJump2.pressing 0 = true ∧
    exJump2.pressed 0 = false := by decide

/-- C1 amended: after every per-subscription update the edge flags satisfy
`pressed = now_pressing && !was` and `released = !now_pressing && was`, where
`was` is the previous value of the stored flag — but the stored flag holds the
previous `pressed` edge flag (and is updated to the new `pressed` edge flag),
not the previous `now_pressing`; hence a second event on an already-pressing
action within the same tick clears `pressed` again. -/
theorem claim1_theorem (sens : F32) (f : F32 → F32) (i j : Nat) (av : ActionValue) :
    (stepAV sens f i j av).pressed
      = (F32.ge (stepAV sens f i j av).value sens && !av.pressed) ∧
    (stepAV sens f i j av).released
      = (!F32.ge (stepAV sens f i j av).value sens && av.pressed) := by
  exact ⟨rfl, rfl⟩

/-! ## Claim C3 -/

/-- C3 counterexample: a platform-supplied `NaN` fed through the gamepad
button path is not detected or normalized: it propagates into the action's
aggregate value. -/
theorem claim3_counterexample :
    exNaN1.value 0 = F32.nan ∧ exNaN1.value 0 ≠ F32.fin 0 := by decide

/-- C3 amended: `NaN` does reach the aggregate value (see the
counterexample); what holds is only that the pressing flag never becomes true
through a `NaN` aggregate, because the `>=` comparison of `pressing` rejects
`NaN`. -/
theorem claim3_theorem (m : InputMap F) (a : F)
    (h : (m.value a).isNan = true) : m.pressing a = false := by
  unfold InputMap.pressing
  exact F32.ge_false_of_isNan _ _ h

/-- Witness for C3 at the concrete `NaN` map. -/
theorem claim3_witness :
    (exNaN1.value 0).isNan = true ∧ exNaN1.pressing 0 = false :=
  ⟨by decide, claim3_theorem exNaN1 0 (by decide)⟩

/-! ## Claim C4 -/

/-- C4 counterexample: applying the sub-epsilon value `2^-30` leaves the
aggregate at exactly `2^-30`, an epsilon-sized nonzero value; nothing snaps it
to `0.0` even though it is within `f32::EPSILON` of zero. -/
theorem claim4_counterexample :
    exEps1.value 0 = F32.fin (1 / 2 ^ 30) ∧
    (1 / 2 ^ 30 : ℚ) < f32_epsilon ∧
    F32.fin (1 / 2 ^ 30) ≠ F32.fin 0 := by
  refine ⟨by decide, ?_, by decide⟩
  unfold f32_epsilon
  norm_num

/-- C4 amended: the per-subscription update adds the delta
`new_contribution - old_contribution` to the aggregate unconditionally; there
is no epsilon comparison and no snap to `0.0` anywhere in the update. -/
theorem claim4_theorem (sens : F32) (f : F32 → F32) (i j : Nat) (av : ActionValue) :
    (stepAV sens f i j av).value
      = av.value + (newSubVal f av i j - (av.sub_values.getD i (F32.fin 0, [])).1) := by
  rfl

/-! ## Claim C7 -/

/-- C7 (a code bug): `add_binds` on an action that already owns one binding
`[Key 1]` pushes the two new bindings at indices 1 and 2 but registers their
slots and subscriptions starting from index 0.  Afterwards the pre-existing
binding 0 has slot count 2 instead of 1 (its state was disturbed), the new
code `Button 0` is subscribed at `(0, 0, 0)` — colliding with `Key 1`'s
subscription — the binding at index 2 has no slots at all, and pressing
`Key 1`, which made the action pressing before the `add_binds`, no longer
does (the extra slot of binding 0 is stuck at `0.0` and zeroes its product). -/
theorem claim7_theorem :
    (alGet exC7add.action_val 0).map (fun av => av.sub_values.map (fun p => p.2.length))
      = some [2, 1, 0] ∧
    alGet exC7add.bind_hash (InputCode.Device SpecifyDevice.Any (DeviceInput.Button 0))
      = some [(0, 0, 0)] ∧
    alGet exC7add.bind_hash (InputCode.Device SpecifyDevice.Any (DeviceInput.Key 1))
      = some [(0, 0, 0)] ∧
    (exKey0.update_val ((DeviceInput.Key 1).with_id 0) (F32.fin 1)).pressing 0 = true ∧
    (exC7add.update_val ((DeviceInput.Key 1).with_id 0) (F32.fin 1)).pressing 0 = false := by
  decide

/-! ## Claim C8 -/

/-- C8 counterexample: `set_binds` with the empty bind list does not restore
the state of a fresh `InputMap::new`: the per-action state survives, so the
action keeps aggregate value `1.0` and its `pressed` flag, while a freshly
constructed map has no action state at all. -/
theorem claim8_counterexample :
    exC8set.value 0 = F32.fin 1 ∧ exC8set.pressed 0 = true ∧
    (InputMap.new ([] : Binds Nat)).value 0 = F32.fin 0 ∧
    exC8set.action_val ≠ (InputMap.new ([] : Binds Nat)).action_val := by decide

/-! ## Claim C5 -/

theorem listProd_acc_fin_ne_zero (l : List F32)
    (h : ∀ x ∈ l, ∃ r, x = F32.fin r ∧ r ≠ 0) :
    ∀ acc : ℚ, acc ≠ 0 →
      ∃ q, l.foldl (fun a b => a * b) (F32.fin acc) = F32.fin q ∧ q ≠ 0 := by
  induction l with
  | nil => exact fun acc hacc => ⟨acc, rfl, hacc⟩
  | cons x rest ih =>
      intro acc hacc
      obtain ⟨r, hx, hr⟩ := h x (List.mem_cons_self x rest)
      have hrest : ∀ y ∈ rest, ∃ r, y = F32.fin r ∧ r ≠ 0 :=
        fun y hy => h y (List.mem_cons_of_mem x hy)
      subst hx
      have : (List.foldl (fun a b => a * b) (F32.fin acc * F32.fin r) rest)
          = List.foldl (fun a b => a * b) (F32.fin (acc * r)) rest := by
        rw [F32.fin_mul_fin]
      rw [List.foldl_cons, this]
      exact ih hrest (acc * r) (mul_ne_zero hacc hr)

/-- A product of slots that are all finite and nonzero is finite and nonzero. -/
theorem listProd_fin_ne_zero (l : List F32)
    (h : ∀ x ∈ l, ∃ r, x = F32.fin r ∧ r ≠ 0) :
    ∃ q, listProd l = F32.fin q ∧ q ≠ 0 :=
  listProd_acc_fin_ne_zero l h 1 one_ne_zero

/-- When the overwritten slot previously held `0.0`, the ratio is never
finite, so the contribution is recomputed as the product of the updated
slots. -/
theorem newSubVal_of_zero (f : F32 → F32) (av : ActionValue) (i j : Nat)
    (h0 : oldSlot av i j = F32.fin 0) :
    newSubVal f av i j = listProd (newSlots f av i j) := by
  unfold newSubVal
  rw [h0]
  simp [F32.div_not_finite_zero]

/-- C5 (confirmed): on an apply whose affected slot previously cached `0.0`,
the division of the ratio path is guarded: the stored contribution becomes
the from-scratch product of the binding's slot values after the overwrite
(never the non-finite ratio), and if all updated slots are finite and nonzero
— the zero-to-nonzero transition with every other slot nonzero — the stored
contribution is finite and nonzero. -/
theorem claim5_theorem (sens : F32) (f : F32 → F32) (i j : Nat) (av : ActionValue)
    (hi : i < av.sub_values.length)
    (h0 : oldSlot av i j = F32.fin 0) :
    ((stepAV sens f i j av).sub_values.getD i (F32.fin 0, [])).1
      = listProd (newSlots f av i j) ∧
    ((∀ x ∈ newSlots f av i j, ∃ r, x = F32.fin r ∧ r ≠ 0) →
      ∃ q, ((stepAV sens f i j av).sub_values.getD i (F32.fin 0, [])).1
        = F32.fin q ∧ q ≠ 0) := by
  have hsv : (stepAV sens f i j av).sub_values
      = av.sub_values.set i (newSubVal f av i j, newSlots f av i j) := rfl
  have hget : ((stepAV sens f i j av).sub_values.getD i (F32.fin 0, []))
      = (newSubVal f av i j, newSlots f av i j) := by
    rw [hsv]
    exact getD_set_self av.sub_values i _ _ hi
  constructor
  · rw [hget]
    exact newSubVal_of_zero f av i j h0
  · intro hfz
    obtain ⟨q, hq, hq0⟩ := listProd_fin_ne_zero (newSlots f av i j) hfz
    refine ⟨q, ?_, hq0⟩
    rw [hget]
    rw [newSubVal_of_zero f av i j h0]
    exact hq

/-- The `ActionValue` used by the C5 witness: one binding whose slots cache
`[0.0, 2.0]`. -/
def exC5av : ActionValue := ⟨F32.fin 0, false, false, [(F32.fin 0, [F32.fin 0, F32.fin 2])]⟩

/-- Witness for C5: overwriting the zero slot with `3.0` recomputes the
contribution as the product `3.0 * 2.0`, which is finite and nonzero. -/
theorem claim5_witness :
    (0 < exC5av.sub_values.length ∧ oldSlot exC5av 0 0 = F32.fin 0) ∧
    ((stepAV (F32.fin (1 / 2)) (fun _ => F32.fin 3) 0 0 exC5av).sub_values.getD 0
        (F32.fin 0, [])).1 = listProd (newSlots (fun _ => F32.fin 3) exC5av 0 0) ∧
    (∃ q, ((stepAV (F32.fin (1 / 2)) (fun _ => F32.fin 3) 0 0 exC5av).sub_values.getD 0
        (F32.fin 0, [])).1 = F32.fin q ∧ q ≠ 0) := by
  have hfz : ∀ x ∈ newSlots (fun _ => F32.fin 3) exC5av 0 0,
      ∃ r, x = F32.fin r ∧ r ≠ 0 := by
    intro x hx
    have hxl : x = F32.fin 3 ∨ x = F32.fin 2 := by
      have : x ∈ [F32.fin 3, F32.fin 2] := by
        simpa [newSlots, oldSlot, exC5av] using hx
      simpa using this
    rcases hxl with h | h
    · exact ⟨3, h, by norm_num⟩
    · exact ⟨2, h, by norm_num⟩
  have hc := claim5_theorem (F32.fin (1 / 2)) (fun _ => F32.fin 3) 0 0 exC5av
    (by decide) (by decide)
  exact ⟨⟨by decide, by decide⟩, hc.1, hc.2 hfz⟩

/-! ## Generic facts about the update pipeline -/

theorem getD_of_le {α : Type} (l : List α) (i : Nat) (d : α) (h : l.length ≤ i) :
    l.getD i d = d := by
  induction l generalizing i with
  | nil => cases i <;> rfl
  | cons x rest ih =>
      cases i with
      | zero => simp at h
      | succ n => exact ih n (by simpa using h)

theorem alGet_map_snd {K V : Type} [DecidableEq K] (g : V → V)
    (l : List (K × V)) (k : K) :
    alGet (l.map (fun p => (p.1, g p.2))) k = (alGet l k).map g := by
  induction l with
  | nil => rfl
  | cons p rest ih =>
      by_cases hk : p.1 = k
      · simp [alGet, hk]
      · simp [alGet, hk, ih]

theorem subStep_bind_hash (code : InputCode) (f : F32 → F32) (m : InputMap F)
    (t : F × Nat × Nat) : (subStep code f m t).bind_hash = m.bind_hash := by
  unfold subStep
  cases alGet m.action_val t.1 <;> rfl

theorem runTriples_bind_hash (code : InputCode) (f : F32 → F32) :
    ∀ (ts : List (F × Nat × Nat)) (m : InputMap F),
      (runTriples code f ts m).bind_hash = m.bind_hash
  | [], _ => rfl
  | t :: rest, m => by
      rw [runTriples, runTriples_bind_hash code f rest, subStep_bind_hash]

theorem modify_single_val_bind_hash (code : InputCode) (f : F32 → F32)
    (m : InputMap F) : (m.modify_single_val code f).bind_hash = m.bind_hash := by
  unfold InputMap.modify_single_val
  cases alGet m.bind_hash code with
  | none =>
      by_cases h : F32.ge (f (F32.fin 0)) m.press_sensitivity ∧ ¬ code.is_any = true
      · simp only []
        split <;> rfl
      · simp only []
        split <;> rfl
  | some l => exact runTriples_bind_hash code f l m

theorem modify_val_bind_hash (code : InputCode) (f : F32 → F32)
    (m : InputMap F) : (m.modify_val code f).bind_hash = m.bind_hash := by
  unfold InputMap.modify_val
  rw [modify_single_val_bind_hash, modify_single_val_bind_hash]

theorem update_val_bind_hash (code : InputCode) (v : F32) (m : InputMap F) :
    (m.update_val code v).bind_hash = m.bind_hash :=
  modify_val_bind_hash code _ m

theorem subStep_press_sensitivity (code : InputCode) (f : F32 → F32)
    (m : InputMap F) (t : F × Nat × Nat) :
    (subStep code f m t).press_sensitivity = m.press_sensitivity := by
  unfold subStep
  cases alGet m.action_val t.1 <;> rfl

theorem runTriples_press_sensitivity (code : InputCode) (f : F32 → F32) :
    ∀ (ts : List (F × Nat × Nat)) (m : InputMap F),
      (runTriples code f ts m).press_sensitivity = m.press_sensitivity
  | [], _ => rfl
  | t :: rest, m => by
      rw [runTriples, runTriples_press_sensitivity code f rest,
        subStep_press_sensitivity]

theorem modify_single_val_press_sensitivity (code : InputCode) (f : F32 → F32)
    (m : InputMap F) :
    (m.modify_single_val code f).press_sensitivity = m.press_sensitivity := by
  unfold InputMap.modify_single_val
  cases alGet m.bind_hash code with
  | none =>
      simp only []
      split <;> rfl
  | some l => exact runTriples_press_sensitivity code f l m

/-! ## Claim C8 (amended part) -/

theorem pushSlot_bind_hash (a : F) (bi : Nat) (m : InputMap F) :
    (pushSlot a bi m).bind_hash = m.bind_hash := rfl

theorem pushNewBind_bind_hash (a : F) (m : InputMap F) :
    (pushNewBind a m).bind_hash = m.bind_hash := rfl

theorem addBindCodes_hash_congr (a : F) (bi : Nat) :
    ∀ (bind : List InputCode) (ci : Nat) (m m' : InputMap F),
      m.bind_hash = m'.bind_hash →
      (addBindCodes a bi ci bind m).bind_hash
        = (addBindCodes a bi ci bind m').bind_hash
  | [], _, _, _, h => h
  | code :: rest, ci, m, m', h => by
      rw [addBindCodes, addBindCodes]
      apply addBindCodes_hash_congr a bi rest (ci + 1)
      show alModify [] _ (pushSlot a bi m).bind_hash code
          = alModify [] _ (pushSlot a bi m').bind_hash code
      rw [pushSlot_bind_hash, pushSlot_bind_hash, h]

theorem addActionBinds_hash_congr (a : F) :
    ∀ (bl : List (List InputCode)) (bi : Nat) (m m' : InputMap F),
      m.bind_hash = m'.bind_hash →
      (addActionBinds a bi bl m).bind_hash = (addActionBinds a bi bl m').bind_hash
  | [], _, _, _, h => h
  | bind :: rest, bi, m, m', h => by
      rw [addActionBinds, addActionBinds]
      apply addActionBinds_hash_congr a rest (bi + 1)
      apply addBindCodes_hash_congr
      rw [pushNewBind_bind_hash, pushNewBind_bind_hash, h]

theorem add_binds_hash_congr :
    ∀ (binds : Binds F) (m m' : InputMap F),
      m.bind_hash = m'.bind_hash →
      (InputMap.add_binds binds m).bind_hash = (InputMap.add_binds binds m').bind_hash
  | [], _, _, h => h
  | (a, bl) :: rest, m, m', h => by
      rw [InputMap.add_binds, InputMap.add_binds]
      exact add_binds_hash_congr rest _ _ (addActionBinds_hash_congr a bl 0 m m' h)

/-- C8 amended: `set_binds` clears and rebuilds only the reverse index — the
`bind_hash` after `set_binds(b)` is exactly the `bind_hash` of a freshly
constructed `InputMap::new(b)` (the bind-table part of registration does not
read the per-action state).  The per-action state, by contrast, survives (see
the counterexample). -/
theorem claim8_theorem (m : InputMap F) (binds : Binds F) :
    (m.set_binds binds).bind_hash = (InputMap.new binds).bind_hash := by
  unfold InputMap.set_binds InputMap.new
  exact add_binds_hash_congr binds _ _ rfl

/-! ## Zero-write machinery (used by C6 and C9): applying the constant `0.0`
through the update engine drives every subscribed slot of the applied
identity to `0.0` and never un-zeroes any other slot. -/

theorem stepAV_sub_values (sens : F32) (f : F32 → F32) (i j : Nat) (av : ActionValue) :
    (stepAV sens f i j av).sub_values
      = av.sub_values.set i (newSubVal f av i j, newSlots f av i j) := rfl

theorem slot_zero_stepAV_self (sens : F32) (i j : Nat) (av : ActionValue) :
    ((stepAV sens (fun _ => F32.fin 0) i j av).sub_values.getD i
      (F32.fin 0, [])).2.getD j (F32.fin 0) = F32.fin 0 := by
  rw [stepAV_sub_values]
  by_cases hi : i < av.sub_values.length
  · rw [getD_set_self _ _ _ _ hi]
    show (newSlots (fun _ => F32.fin 0) av i j).getD j (F32.fin 0) = F32.fin 0
    unfold newSlots
    by_cases hj : j < (av.sub_values.getD i (F32.fin 0, [])).2.length
    · exact getD_set_self _ _ _ _ hj
    · rw [getD_of_le]
      rw [List.length_set]
      omega
  · have hlen : (av.sub_values.set i (newSubVal (fun _ => F32.fin 0) av i j,
        newSlots (fun _ => F32.fin 0) av i j)).length ≤ i := by
      rw [List.length_set]
      omega
    rw [getD_of_le _ _ _ hlen]
    rfl

theorem slot_zero_stepAV_preserved (sens : F32) (f : F32 → F32) (i' j' i j : Nat)
    (av : ActionValue) (hf : f (oldSlot av i' j') = F32.fin 0)
    (h : (av.sub_values.getD i (F32.fin 0, [])).2.getD j (F32.fin 0) = F32.fin 0) :
    ((stepAV sens f i' j' av).sub_values.getD i
      (F32.fin 0, [])).2.getD j (F32.fin 0) = F32.fin 0 := by
  rw [stepAV_sub_values]
  by_cases hii : i = i'
  · subst hii
    by_cases hi : i < av.sub_values.length
    · rw [getD_set_self _ _ _ _ hi]
      show (newSlots f av i j').getD j (F32.fin 0) = F32.fin 0
      unfold newSlots
      rw [hf]
      by_cases hjj : j = j'
      · subst hjj
        by_cases hj : j < (av.sub_values.getD i (F32.fin 0, [])).2.length
        · exact getD_set_self _ _ _ _ hj
        · rw [getD_of_le]
          rw [List.length_set]
          omega
      · rw [getD_set_ne _ _ _ _ _ hjj]
        exact h
    · have hlen : (av.sub_values.set i (newSubVal f av i j',
          newSlots f av i j')).length ≤ i := by
        rw [List.length_set]
        omega
      rw [getD_of_le _ _ _ hlen]
      rfl
  · rw [getD_set_ne _ _ _ _ _ hii]
    exact h

theorem subStep_slot_zero_self (code : InputCode) (m : InputMap F) (t : F × Nat × Nat) :
    slotValue (subStep code (fun _ => F32.fin 0) m t) t.1 t.2.1 t.2.2 = F32.fin 0 := by
  unfold subStep
  cases h : alGet m.action_val t.1 with
  | none => simp [slotValue, h]
  | some av =>
      simp only []
      unfold slotValue
      simp only []
      rw [alGet_alSet_self _ _ _ _ h]
      exact slot_zero_stepAV_self m.press_sensitivity t.2.1 t.2.2 av

theorem subStep_slot_zero_preserved (code : InputCode) (m : InputMap F)
    (t : F × Nat × Nat) (a : F) (i j : Nat)
    (h : slotValue m a i j = F32.fin 0) :
    slotValue (subStep code (fun _ => F32.fin 0) m t) a i j = F32.fin 0 := by
  unfold subStep
  cases h1 : alGet m.action_val t.1 with
  | none => simpa [slotValue, h1] using h
  | some av =>
      simp only []
      unfold slotValue
      simp only []
      by_cases hat : a = t.1
      · subst hat
        rw [alGet_alSet_self _ _ _ _ h1]
        unfold slotValue at h
        rw [h1] at h
        exact slot_zero_stepAV_preserved m.press_sensitivity _ t.2.1 t.2.2 i j av rfl h
      · rw [alGet_alSet_ne _ _ _ _ hat]
        unfold slotValue at h
        exact h

theorem runTriples_slot_zero_preserved (code : InputCode) :
    ∀ (ts : List (F × Nat × Nat)) (m : InputMap F) (a : F) (i j : Nat),
      slotValue m a i j = F32.fin 0 →
      slotValue (runTriples code (fun _ => F32.fin 0) ts m) a i j = F32.fin 0
  | [], _, _, _, _, h => h
  | t :: rest, m, a, i, j, h => by
      rw [runTriples]
      exact runTriples_slot_zero_preserved code rest _ a i j
        (subStep_slot_zero_preserved code m t a i j h)

theorem runTriples_slot_zero_self (code : InputCode) :
    ∀ (ts : List (F × Nat × Nat)) (m : InputMap F) (t : F × Nat × Nat),
      t ∈ ts →
      slotValue (runTriples code (fun _ => F32.fin 0) ts m) t.1 t.2.1 t.2.2 = F32.fin 0 := by
  intro ts
  induction ts with
  | nil => intro m t ht; simp at ht
  | cons u rest ih =>
      intro m t ht
      rw [runTriples]
      rcases List.mem_cons.mp ht with h | h
      · subst h
        exact runTriples_slot_zero_preserved code rest _ t.1 t.2.1 t.2.2
          (subStep_slot_zero_self code m t)
      · exact ih _ t h

theorem modify_single_val_slot_zero_self (m : InputMap F) (code : InputCode)
    (l : List (F × Nat × Nat)) (hl : alGet m.bind_hash code = some l)
    (t : F × Nat × Nat) (ht : t ∈ l) :
    slotValue (m.modify_single_val code (fun _ => F32.fin 0)) t.1 t.2.1 t.2.2
      = F32.fin 0 := by
  unfold InputMap.modify_single_val
  rw [hl]
  exact runTriples_slot_zero_self code l m t ht

theorem modify_single_val_slot_zero_preserved (m : InputMap F) (code : InputCode)
    (a : F) (i j : Nat) (h : slotValue m a i j = F32.fin 0) :
    slotValue (m.modify_single_val code (fun _ => F32.fin 0)) a i j = F32.fin 0 := by
  unfold InputMap.modify_single_val
  cases h1 : alGet m.bind_hash code with
  | none =>
      simp only []
      split
      · simpa [slotValue] using h
      · exact h
  | some l => exact runTriples_slot_zero_preserved code l m a i j h

theorem update_val_slot_zero_self (m : InputMap F) (code c : InputCode)
    (hc : c = code ∨ c = code.set_any) (l : List (F × Nat × Nat))
    (hl : alGet m.bind_hash c = some l) (t : F × Nat × Nat) (ht : t ∈ l) :
    slotValue (m.update_val code (F32.fin 0)) t.1 t.2.1 t.2.2 = F32.fin 0 := by
  show slotValue ((m.modify_single_val code (fun _ => F32.fin 0)).modify_single_val
    code.set_any (fun _ => F32.fin 0)) t.1 t.2.1 t.2.2 = F32.fin 0
  rcases hc with hc | hc
  · subst hc
    exact modify_single_val_slot_zero_preserved _ _ _ _ _
      (modify_single_val_slot_zero_self m c l hl t ht)
  · subst hc
    apply modify_single_val_slot_zero_self
    · rw [modify_single_val_bind_hash]
      exact hl
    · exact ht

theorem update_val_slot_zero_preserved (m : InputMap F) (code : InputCode)
    (a : F) (i j : Nat) (h : slotValue m a i j = F32.fin 0) :
    slotValue (m.update_val code (F32.fin 0)) a i j = F32.fin 0 :=
  modify_single_val_slot_zero_preserved _ _ _ _ _
    (modify_single_val_slot_zero_preserved _ _ _ _ _ h)

theorem resetVals_bind_hash :
    ∀ (codes : List InputCode) (m : InputMap F),
      (resetVals codes m).bind_hash = m.bind_hash
  | [], _ => rfl
  | c :: rest, m => by
      rw [resetVals, resetVals_bind_hash rest, update_val_bind_hash]

theorem resetVals_slot_zero_preserved :
    ∀ (codes : List InputCode) (m : InputMap F) (a : F) (i j : Nat),
      slotValue m a i j = F32.fin 0 →
      slotValue (resetVals codes m) a i j = F32.fin 0
  | [], _, _, _, _, h => h
  | c :: rest, m, a, i, j, h => by
      rw [resetVals]
      exact resetVals_slot_zero_preserved rest _ a i j
        (update_val_slot_zero_preserved m c a i j h)

theorem resetVals_slot_zero_self :
    ∀ (codes : List InputCode) (m : InputMap F) (c : InputCode), c ∈ codes →
      c.set_any = c →
      ∀ (l : List (F × Nat × Nat)), alGet m.bind_hash c = some l →
      ∀ (t : F × Nat × Nat), t ∈ l →
        slotValue (resetVals codes m) t.1 t.2.1 t.2.2 = F32.fin 0 := by
  intro codes
  induction codes with
  | nil => intro m c hc; simp at hc
  | cons c0 rest ih =>
      intro m c hc hany l hl t ht
      rw [resetVals]
      rcases List.mem_cons.mp hc with h | h
      · subst h
        exact resetVals_slot_zero_preserved rest _ t.1 t.2.1 t.2.2
          (update_val_slot_zero_self m c c (Or.inl rfl) l hl t ht)
      · apply ih _ c h hany l _ t ht
        rw [update_val_bind_hash]
        exact hl

theorem resetGamepadVals_bind_hash (id : Nat) :
    ∀ (inputs : List GamepadInput) (m : InputMap F),
      (resetGamepadVals id inputs m).bind_hash = m.bind_hash
  | [], _ => rfl
  | i :: rest, m => by
      rw [resetGamepadVals, resetGamepadVals_bind_hash id rest, update_val_bind_hash]

theorem resetGamepadVals_slot_zero_preserved (id : Nat) :
    ∀ (inputs : List GamepadInput) (m : InputMap F) (a : F) (i j : Nat),
      slotValue m a i j = F32.fin 0 →
      slotValue (resetGamepadVals id inputs m) a i j = F32.fin 0
  | [], _, _, _, _, h => h
  | c :: rest, m, a, i, j, h => by
      rw [resetGamepadVals]
      exact resetGamepadVals_slot_zero_preserved id rest _ a i j
        (update_val_slot_zero_preserved m _ a i j h)

theorem resetGamepadVals_slot_zero_self (id : Nat) :
    ∀ (inputs : List GamepadInput) (m : InputMap F) (inp : GamepadInput),
      inp ∈ inputs →
      ∀ (c : InputCode),
        (c = InputCode.Gamepad (SpecifyGamepad.Id id) inp ∨
         c = InputCode.Gamepad SpecifyGamepad.Any inp) →
      ∀ (l : List (F × Nat × Nat)), alGet m.bind_hash c = some l →
      ∀ (t : F × Nat × Nat), t ∈ l →
        slotValue (resetGamepadVals id inputs m) t.1 t.2.1 t.2.2 = F32.fin 0 := by
  intro inputs
  induction inputs with
  | nil => intro m inp hinp; simp at hinp
  | cons i0 rest ih =>
      intro m inp hinp c hc l hl t ht
      rw [resetGamepadVals]
      rcases List.mem_cons.mp hinp with h | h
      · subst h
        refine resetGamepadVals_slot_zero_preserved id rest _ t.1 t.2.1 t.2.2 ?_
        refine update_val_slot_zero_self m (inp.with_id id) c ?_ l hl t ht
        rcases hc with h | h
        · exact Or.inl h
        · exact Or.inr h
      · apply ih _ inp h c hc l _ t ht
        rw [update_val_bind_hash]
        exact hl

/-- Every `GamepadInput` appears in the disconnect reset list. -/
theorem mem_disconnectInputs (inp : GamepadInput) : inp ∈ disconnectInputs := by
  cases inp <;> decide

/-! ## Claim C9 -/

set_option maxRecDepth 8000 in
/-- C9 counterexample: `Jump` is bound to the any-controller form of the
south button.  Controller 1 presses it, controller 2 presses it too; then
controller 1 disconnects — and the action stops pressing, because the
disconnect's `apply(South@1, 0.0)` is routed through the wildcard identity as
well and zeroes the shared wildcard slot, wiping controller 2's contribution
(contrary to the claim that only identities whose scope matches controller 1
are cleared). -/
theorem claim9_counterexample :
    exPad1.pressing 0 = true ∧ exPad2.pressing 0 = true ∧
    exPad3.pressing 0 = false ∧ exPad3.value 0 = F32.fin 0 := by
  have h1 : exPad1.pressing 0 = true := by decide
  have h2 : exPad2.pressing 0 = true := by decide
  have h3 : exPad3.pressing 0 = false ∧ exPad3.value 0 = F32.fin 0 := by decide
  exact ⟨h1, h2, h3.1, h3.2⟩

/-- C9 amended: a disconnect of controller `id` applies `0.0` to all 28
gamepad inputs under the specific identity of `id` and — through the dual
wildcard apply of `modify_val` — under the any-controller identity as well.
Hence every subscribed slot of either scope is cleared, including the shared
wildcard slots carrying another controller's contribution, and a
wildcard-bound action held by another controller stops pressing. -/
theorem claim9_theorem (m : InputMap F) (id : Nat) (inp : GamepadInput)
    (c : InputCode)
    (hc : c = InputCode.Gamepad (SpecifyGamepad.Id id) inp ∨
          c = InputCode.Gamepad SpecifyGamepad.Any inp)
    (l : List (F × Nat × Nat))
    (hl : alGet (m.update_gamepad id GilrsEventType.Disconnected).bind_hash c = some l)
    (t : F × Nat × Nat) (ht : t ∈ l) :
    slotValue (m.update_gamepad id GilrsEventType.Disconnected) t.1 t.2.1 t.2.2
      = F32.fin 0 := by
  show slotValue (resetGamepadVals id disconnectInputs m) t.1 t.2.1 t.2.2 = F32.fin 0
  refine resetGamepadVals_slot_zero_self id disconnectInputs m inp
    (mem_disconnectInputs inp) c hc l ?_ t ht
  rw [← resetGamepadVals_bind_hash id disconnectInputs m]
  exact hl

set_option maxRecDepth 8000 in
/-- Witness for C9: in the concrete two-controller scenario the wildcard
south-button subscription's slot reads `0.0` after controller 1 disconnects. -/
theorem claim9_witness :
    (alGet exPad3.bind_hash (InputCode.Gamepad SpecifyGamepad.Any GamepadInput.South)
      = some [(0, 0, 0)]) ∧
    slotValue exPad3 0 0 0 = F32.fin 0 :=
  ⟨by decide,
   claim9_theorem exPad2 1 GamepadInput.South
     (InputCode.Gamepad SpecifyGamepad.Any GamepadInput.South) (Or.inr rfl)
     [(0, 0, 0)] (by decide) (0, 0, 0) (by decide)⟩

/-! ## Claim C6 -/

theorem init_bind_hash (m : InputMap F) : (m.init).bind_hash = m.bind_hash := by
  unfold InputMap.init
  simp only []
  rw [resetVals_bind_hash]

theorem init_action_val (m : InputMap F) :
    (m.init).action_val
      = (resetVals (initResetInputs.map DeviceInput.toCode) m).action_val.map
          (fun p => (p.1, clearFlags p.2)) := by
  unfold InputMap.init
  simp only []

theorem slotValue_init (m : InputMap F) (a : F) (i j : Nat) :
    slotValue (m.init) a i j
      = slotValue (resetVals (initResetInputs.map DeviceInput.toCode) m) a i j := by
  unfold slotValue InputMap.init
  simp only []
  rw [alGet_map_snd]
  cases alGet (resetVals (initResetInputs.map DeviceInput.toCode) m).action_val a <;> rfl

/-- C6 counterexample: an action bound to `MouseMoveRight` of the *specific*
device 5 accumulates `2.3` from mouse motion, and `init` does not reset it:
the synthetic `apply(identity, 0.0)` is routed only through the any-device
wildcard identities, so the specific-device slot (and the action's value)
still read `2.3` after `init`, contrary to the claim that every device scope
is driven back to `0.0`. -/
theorem claim6_counterexample :
    exMouseSpec1.value 0 = F32.fin (23 / 10) ∧
    (exMouseSpec1.init).value 0 = F32.fin (23 / 10) ∧
    slotValue (exMouseSpec1.init) 0 0 0 = F32.fin (23 / 10) := by decide

/-- C6 amended: `init` clears the pressed and released flags of every action,
clears `recently_pressed` and `text_typed`, and routes a synthetic
`apply(identity, 0.0)` through the update engine for the eight relative-delta
identities under the any-device wildcard scope only — every slot subscribed
to one of those wildcard identities reads `0.0` afterwards, while slots
cached under specific device ids are not reset (see the counterexample). -/
theorem claim6_theorem (m : InputMap F) :
    (m.init).recently_pressed = none ∧
    (m.init).text_typed = none ∧
    (∀ a, (m.init).pressed a = false ∧ (m.init).released a = false) ∧
    (∀ c, c ∈ initResetInputs.map DeviceInput.toCode →
      ∀ l, alGet (m.init).bind_hash c = some l →
      ∀ t, t ∈ l → slotValue (m.init) t.1 t.2.1 t.2.2 = F32.fin 0) := by
  refine ⟨rfl, rfl, ?_, ?_⟩
  · intro a
    constructor
    · unfold InputMap.pressed
      rw [init_action_val, alGet_map_snd]
      cases alGet (resetVals (initResetInputs.map DeviceInput.toCode) m).action_val a
        <;> rfl
    · unfold InputMap.released
      rw [init_action_val, alGet_map_snd]
      cases alGet (resetVals (initResetInputs.map DeviceInput.toCode) m).action_val a
        <;> rfl
  · intro c hc l hl t ht
    rw [slotValue_init]
    have hany : c.set_any = c := by
      rcases List.mem_map.mp hc with ⟨inp, _, rfl⟩
      rfl
    refine resetVals_slot_zero_self _ m c hc hany l ?_ t ht
    rw [← init_bind_hash]
    exact hl

set_option maxRecDepth 8000 in
set_option maxHeartbeats 2000000 in
/-- Witness for C6: the wildcard `MouseMoveRight` binding accumulated `2.3`;
after `init` its subscribed slot reads `0.0`, the flags are cleared and
`recently_pressed` is empty. -/
theorem claim6_witness :
    (exMouseAny1.value 1 = F32.fin (23 / 10) ∧
     (InputCode.Device SpecifyDevice.Any DeviceInput.MouseMoveRight)
       ∈ initResetInputs.map DeviceInput.toCode ∧
     alGet (exMouseAny1.init).bind_hash
       (InputCode.Device SpecifyDevice.Any DeviceInput.MouseMoveRight)
       = some [(1, 0, 0)]) ∧
    slotValue (exMouseAny1.init) 1 0 0 = F32.fin 0 ∧
    (exMouseAny1.init).pressed 1 = false ∧
    (exMouseAny1.init).recently_pressed = none :=
  ⟨⟨by decide, by decide, by decide⟩,
   (claim6_theorem exMouseAny1).2.2.2
     (InputCode.Device SpecifyDevice.Any DeviceInput.MouseMoveRight) (by decide)
     [(1, 0, 0)] (by decide) (1, 0, 0) (by decide),
   ((claim6_theorem exMouseAny1).2.2.1 1).1,
   (claim6_theorem exMouseAny1).1⟩

/-! ## Claim C10 -/

theorem getD_map_fixed {α : Type} (f : α → α) (l : List α) (i : Nat) (d : α)
    (hd : f d = d) : (l.map f).getD i d = f (l.getD i d) := by
  induction l generalizing i with
  | nil => simpa using hd.symm
  | cons x rest ih =>
      cases i with
      | zero => rfl
      | succ n => exact ih n

/-- C10 (confirmed): losing window focus zeroes every action's aggregate
value and every cached binding contribution and slot value, while leaving the
pressed and released flags untouched — so an action pressing at that moment
stops pressing (for a positive press threshold) without a released edge being
reported. -/
theorem claim10_theorem (m : InputMap F)
    (h : F32.lt (F32.fin 0) m.press_sensitivity = true) (a : F) (i j : Nat) :
    (InputMap.update_focused false m).value a = F32.fin 0 ∧
    (InputMap.update_focused false m).pressed a = m.pressed a ∧
    (InputMap.update_focused false m).released a = m.released a ∧
    (InputMap.update_focused false m).pressing a = false ∧
    slotValue (InputMap.update_focused false m) a i j = F32.fin 0 ∧
    contribValue (InputMap.update_focused false m) a i = F32.fin 0 := by
  have hval : (InputMap.update_focused false m).value a = F32.fin 0 := by
    unfold InputMap.value InputMap.update_focused
    simp only [Bool.false_eq_true, if_false]
    rw [alGet_map_snd]
    cases alGet m.action_val a <;> rfl
  refine ⟨hval, ?_, ?_, ?_, ?_, ?_⟩
  · unfold InputMap.pressed InputMap.update_focused
    simp only [Bool.false_eq_true, if_false]
    rw [alGet_map_snd]
    cases alGet m.action_val a <;> rfl
  · unfold InputMap.released InputMap.update_focused
    simp only [Bool.false_eq_true, if_false]
    rw [alGet_map_snd]
    cases alGet m.action_val a <;> rfl
  · unfold InputMap.pressing
    rw [hval]
    have hsens : (InputMap.update_focused false m).press_sensitivity
        = m.press_sensitivity := by
      unfold InputMap.update_focused
      simp only [Bool.false_eq_true, if_false]
    rw [hsens]
    exact F32.ge_fin_zero_false_of_lt m.press_sensitivity h
  · unfold slotValue InputMap.update_focused
    simp only [Bool.false_eq_true, if_false]
    rw [alGet_map_snd]
    cases alGet m.action_val a with
    | none => rfl
    | some av =>
        show (((clearVals av).sub_values).getD i (F32.fin 0, [])).2.getD j
            (F32.fin 0) = F32.fin 0
        unfold clearVals
        rw [getD_map_fixed _ _ _ _ rfl]
        rw [getD_map_fixed _ _ _ _ rfl]
  · unfold contribValue InputMap.update_focused
    simp only [Bool.false_eq_true, if_false]
    rw [alGet_map_snd]
    cases alGet m.action_val a with
    | none => rfl
    | some av =>
        show (((clearVals av).sub_values).getD i (F32.fin 0, [])).1 = F32.fin 0
        unfold clearVals
        rw [getD_map_fixed _ _ _ _ rfl]

/-- Witness for C10 at the concrete pressing map `exJump1`. -/
theorem claim10_witness :
    (F32.lt (F32.fin 0) exJump1.press_sensitivity = true ∧
     exJump1.pressing 0 = true ∧ exJump1.pressed 0 = true) ∧
    ((InputMap.update_focused false exJump1).value 0 = F32.fin 0 ∧
     (InputMap.update_focused false exJump1).pressed 0 = exJump1.pressed 0 ∧
     (InputMap.update_focused false exJump1).released 0 = exJump1.released 0 ∧
     (InputMap.update_focused false exJump1).pressing 0 = false ∧
     slotValue (InputMap.update_focused false exJump1) 0 0 0 = F32.fin 0 ∧
     contribValue (InputMap.update_focused false exJump1) 0 0 = F32.fin 0) :=
  ⟨⟨by decide, by decide, by decide⟩,
   claim10_theorem exJump1 (by decide) 0 0 0⟩

/-! ## Claim C2: the incremental aggregate versus the naive recomputation -/

theorem getD_map_lt {α β : Type} (f : α → β) (l : List α) (i : Nat) (d : β)
    (d' : α) (h : i < l.length) : (l.map f).getD i d = f (l.getD i d') := by
  induction l generalizing i with
  | nil => simp at h
  | cons x rest ih =>
      cases i with
      | zero => rfl
      | succ n => exact ih n (by simpa using h)

theorem getD_mem {α : Type} (l : List α) (i : Nat) (d : α) (h : i < l.length) :
    l.getD i d ∈ l := by
  rw [getD_pos_of_lt l i d h]
  exact List.get_mem l i h

theorem prod_set_mul (l : List ℚ) (j : Nat) (v : ℚ) (h : j < l.length) :
    (l.set j v).prod * l.getD j 0 = l.prod * v := by
  induction l generalizing j with
  | nil => simp at h
  | cons x rest ih =>
      cases j with
      | zero =>
          show v * rest.prod * x = x * rest.prod * v
          ring
      | succ n =>
          have hn : n < rest.length := by simpa using h
          show x * (rest.set n v).prod * rest.getD n 0 = x * rest.prod * v
          rw [mul_assoc, ih n hn, mul_assoc]

theorem sum_set_eq (l : List ℚ) (i : Nat) (v : ℚ) (h : i < l.length) :
    (l.set i v).sum = l.sum - l.getD i 0 + v := by
  induction l generalizing i with
  | nil => simp at h
  | cons x rest ih =>
      cases i with
      | zero =>
          show v + rest.sum = x + rest.sum - x + v
          ring
      | succ n =>
          have hn : n < rest.length := by simpa using h
          show x + (rest.set n v).sum = x + rest.sum - rest.getD n 0 + v
          rw [ih n hn]
          ring

theorem foldl_add_fin (l : List F32) (h : ∀ x ∈ l, x.isFinite = true) :
    ∀ acc : ℚ, l.foldl (fun a b => a + b) (F32.fin acc)
      = F32.fin (acc + (l.map F32.toQ).sum) := by
  induction l with
  | nil => intro acc; simp
  | cons x rest ih =>
      intro acc
      obtain ⟨r, hx⟩ := (F32.isFinite_iff x).mp (h x (List.mem_cons_self x rest))
      subst hx
      rw [List.foldl_cons, F32.fin_add_fin,
        ih (fun y hy => h y (List.mem_cons_of_mem _ hy)) (acc + r)]
      apply congrArg F32.fin
      simp [F32.toQ]
      ring

theorem listProd_fin_of_finite (l : List F32) (h : ∀ x ∈ l, x.isFinite = true) :
    listProd l = F32.fin ((l.map F32.toQ).prod) := by
  unfold listProd
  suffices hgen : ∀ acc : ℚ, l.foldl (fun a b => a * b) (F32.fin acc)
      = F32.fin (acc * (l.map F32.toQ).prod) by
    rw [hgen 1, one_mul]
  induction l with
  | nil => intro acc; simp
  | cons x rest ih =>
      intro acc
      obtain ⟨r, hx⟩ := (F32.isFinite_iff x).mp (h x (List.mem_cons_self x rest))
      subst hx
      rw [List.foldl_cons, F32.fin_mul_fin,
        ih (fun y hy => h y (List.mem_cons_of_mem _ hy)) (acc * r)]
      apply congrArg F32.fin
      simp [F32.toQ]
      ring

/-- The per-binding invariant: the stored contribution is the (finite)
product of the cached slot values, and the binding is a nonempty AND-group of
finite slots. -/
def contribOK (p : F32 × List F32) : Prop :=
  p.1 = F32.fin ((p.2.map F32.toQ).prod) ∧ p.2 ≠ [] ∧ ∀ x ∈ p.2, x.isFinite = true

/-- The per-action invariant: every binding satisfies `contribOK` and the
aggregate value is the (finite) sum of the stored contributions. -/
def avOK (av : ActionValue) : Prop :=
  (∀ p ∈ av.sub_values, contribOK p) ∧
  av.value = F32.fin ((av.sub_values.map (fun p => F32.toQ p.1)).sum)

/-- A reverse-index subscription is sound: its action exists and its binding
and slot indices are in range. -/
def tripleOK (avs : List (F × ActionValue)) (t : F × Nat × Nat) : Prop :=
  ∃ av, alGet avs t.1 = some av ∧ t.2.1 < av.sub_values.length ∧
    t.2.2 < ((av.sub_values.getD t.2.1 (F32.fin 0, [])).2).length

/-- The whole-map invariant maintained by the update engine. -/
def mapOK (m : InputMap F) : Prop :=
  (∀ a av, alGet m.action_val a = some av → avOK av) ∧
  (∀ c l, alGet m.bind_hash c = some l → ∀ t ∈ l, tripleOK m.action_val t)

theorem stepAV_value (sens : F32) (f : F32 → F32) (i j : Nat) (av : ActionValue) :
    (stepAV sens f i j av).value
      = av.value + (newSubVal f av i j - (av.sub_values.getD i (F32.fin 0, [])).1) := rfl

theorem stepAV_length (sens : F32) (f : F32 → F32) (i j : Nat) (av : ActionValue) :
    (stepAV sens f i j av).sub_values.length = av.sub_values.length := by
  rw [stepAV_sub_values, List.length_set]

theorem stepAV_getD_slots_length (sens : F32) (f : F32 → F32) (i j : Nat)
    (av : ActionValue) (hi : i < av.sub_values.length) (k : Nat) :
    ((stepAV sens f i j av).sub_values.getD k (F32.fin 0, [])).2.length
      = ((av.sub_values.getD k (F32.fin 0, [])).2).length := by
  rw [stepAV_sub_values]
  by_cases hk : k = i
  · subst hk
    rw [getD_set_self _ _ _ _ hi]
    show (newSlots f av k j).length = _
    unfold newSlots
    rw [List.length_set]
  · rw [getD_set_ne _ _ _ _ _ hk]

theorem newSubVal_const_fin (q : ℚ) (av : ActionValue) (i j : Nat)
    (hj : j < ((av.sub_values.getD i (F32.fin 0, [])).2).length)
    (hp : contribOK (av.sub_values.getD i (F32.fin 0, []))) :
    newSubVal (fun _ => F32.fin q) av i j
      = F32.fin (((newSlots (fun _ => F32.fin q) av i j).map F32.toQ).prod) := by
  obtain ⟨hP, hne, hfin⟩ := hp
  have hold_mem : (av.sub_values.getD i (F32.fin 0, [])).2.getD j (F32.fin 0)
      ∈ (av.sub_values.getD i (F32.fin 0, [])).2 := getD_mem _ _ _ hj
  obtain ⟨qo, hqo⟩ := (F32.isFinite_iff _).mp (hfin _ hold_mem)
  have holdslot : oldSlot av i j = F32.fin qo := hqo
  have hslots_fin : ∀ x ∈ newSlots (fun _ => F32.fin q) av i j, x.isFinite = true := by
    intro x hx
    rcases List.mem_or_eq_of_mem_set hx with hmem | heq
    · exact hfin x hmem
    · rw [heq]; rfl
  by_cases hz : qo = 0
  · subst hz
    unfold newSubVal
    rw [holdslot]
    rw [if_neg (by rw [F32.div_not_finite_zero]; exact Bool.false_ne_true)]
    exact listProd_fin_of_finite _ hslots_fin
  · unfold newSubVal
    rw [holdslot]
    rw [F32.div_fin_of_ne q qo hz]
    have hfin' : (F32.fin (q / qo)).isFinite = true := rfl
    rw [if_pos hfin']
    rw [hP, F32.fin_mul_fin]
    apply congrArg F32.fin
    have hmapset : (newSlots (fun _ => F32.fin q) av i j).map F32.toQ
        = ((av.sub_values.getD i (F32.fin 0, [])).2.map F32.toQ).set j q := by
      unfold newSlots
      rw [holdslot]
      exact List.map_set ..
    have hgetd : ((av.sub_values.getD i (F32.fin 0, [])).2.map F32.toQ).getD j 0 = qo := by
      rw [getD_map_lt F32.toQ _ j 0 (F32.fin 0) hj, hqo]
      rfl
    have hprod := prod_set_mul ((av.sub_values.getD i (F32.fin 0, [])).2.map F32.toQ)
      j q (by rw [List.length_map]; exact hj)
    rw [hgetd] at hprod
    rw [hmapset]
    apply mul_right_cancel₀ hz
    rw [hprod, mul_assoc, div_mul_cancel₀ q hz]

theorem stepAV_avOK (sens : F32) (q : ℚ) (i j : Nat) (av : ActionValue)
    (hav : avOK av) (hi : i < av.sub_values.length)
    (hj : j < ((av.sub_values.getD i (F32.fin 0, [])).2).length) :
    avOK (stepAV sens (fun _ => F32.fin q) i j av) := by
  obtain ⟨hall, hval⟩ := hav
  have hp : contribOK (av.sub_values.getD i (F32.fin 0, [])) :=
    hall _ (getD_mem _ _ _ hi)
  have hnew := newSubVal_const_fin q av i j hj hp
  constructor
  · intro p hp'
    rw [stepAV_sub_values] at hp'
    rcases List.mem_or_eq_of_mem_set hp' with hmem | heq
    · exact hall p hmem
    · rw [heq]
      refine ⟨hnew, ?_, ?_⟩
      · have hlen : (newSlots (fun _ => F32.fin q) av i j).length
            = ((av.sub_values.getD i (F32.fin 0, [])).2).length := by
          unfold newSlots
          rw [List.length_set]
        have hpos : 0 < ((av.sub_values.getD i (F32.fin 0, [])).2).length :=
          List.length_pos.mpr hp.2.1
        exact List.ne_nil_of_length_pos (by rw [hlen]; exact hpos)
      · intro x hx
        rcases List.mem_or_eq_of_mem_set hx with hmem | heq'
        · exact hp.2.2 x hmem
        · rw [heq']; rfl
  · rw [stepAV_value, hval, hnew, hp.1, F32.fin_sub_fin, F32.fin_add_fin]
    rw [stepAV_sub_values]
    have hmapset : ((av.sub_values.set i (newSubVal (fun _ => F32.fin q) av i j,
        newSlots (fun _ => F32.fin q) av i j)).map (fun p => F32.toQ p.1))
        = ((av.sub_values.map (fun p => F32.toQ p.1)).set i
            (((newSlots (fun _ => F32.fin q) av i j).map F32.toQ).prod)) := by
      rw [List.map_set ..]
      rw [hnew]
      rfl
    rw [hmapset]
    rw [sum_set_eq _ i _ (by rw [List.length_map]; exact hi)]
    have hgetd : ((av.sub_values.map (fun p => F32.toQ p.1)).getD i 0)
        = ((av.sub_values.getD i (F32.fin 0, [])).2.map F32.toQ).prod := by
      rw [getD_map_lt _ _ i 0 (F32.fin 0, []) hi, hp.1]
      rfl
    rw [hgetd]
    apply congrArg F32.fin
    ring

theorem subStep_action_val (code : InputCode) (f : F32 → F32) (m : InputMap F)
    (t : F × Nat × Nat) (av : ActionValue) (h : alGet m.action_val t.1 = some av) :
    (subStep code f m t).action_val
      = alSet m.action_val t.1 (stepAV m.press_sensitivity f t.2.1 t.2.2 av) := by
  unfold subStep
  rw [h]

theorem subStep_action_val_none (code : InputCode) (f : F32 → F32) (m : InputMap F)
    (t : F × Nat × Nat) (h : alGet m.action_val t.1 = none) :
    (subStep code f m t).action_val = m.action_val := by
  unfold subStep
  rw [h]

theorem subStep_tripleOK_preserved (code : InputCode) (f : F32 → F32)
    (m : InputMap F) (t t' : F × Nat × Nat)
    (ht' : tripleOK m.action_val t') :
    tripleOK (subStep code f m t).action_val t' := by
  obtain ⟨av', hav', hi', hj'⟩ := ht'
  cases h : alGet m.action_val t.1 with
  | none =>
      rw [subStep_action_val_none code f m t h]
      exact ⟨av', hav', hi', hj'⟩
  | some av =>
      rw [subStep_action_val code f m t av h]
      by_cases hat : t'.1 = t.1
      · rw [hat] at hav'
        have hav'' : av' = av := by
          rw [hav'] at h
          exact Option.some.inj h
        subst hav''
        refine ⟨stepAV m.press_sensitivity f t.2.1 t.2.2 av', ?_, ?_, ?_⟩
        · rw [hat]
          exact alGet_alSet_self _ _ _ _ h
        · rw [stepAV_length]
          exact hi'
        · by_cases hi : t.2.1 < av'.sub_values.length
          · rw [stepAV_getD_slots_length _ _ _ _ _ hi]
            exact hj'
          · have hsv : (stepAV m.press_sensitivity f t.2.1 t.2.2 av').sub_values
                = av'.sub_values.set t.2.1 _ := stepAV_sub_values _ _ _ _ _
            rw [hsv, getD_set_ne]
            · exact hj'
            · omega
      · refine ⟨av', ?_, hi', hj'⟩
        rw [alGet_alSet_ne _ _ _ _ hat]
        exact hav'

theorem subStep_mapOK (code : InputCode) (q : ℚ) (m : InputMap F)
    (t : F × Nat × Nat) (hm : mapOK m) (ht : tripleOK m.action_val t) :
    mapOK (subStep code (fun _ => F32.fin q) m t) := by
  obtain ⟨av, hav, hi, hj⟩ := ht
  constructor
  · intro a av₂ h₂
    rw [subStep_action_val code _ m t av hav] at h₂
    by_cases hat : a = t.1
    · subst hat
      rw [alGet_alSet_self _ _ _ _ hav] at h₂
      have : av₂ = stepAV m.press_sensitivity (fun _ => F32.fin q) t.2.1 t.2.2 av :=
        (Option.some.inj h₂).symm
      rw [this]
      exact stepAV_avOK m.press_sensitivity q t.2.1 t.2.2 av (hm.1 _ _ hav) hi hj
    · rw [alGet_alSet_ne _ _ _ _ hat] at h₂
      exact hm.1 _ _ h₂
  · intro c l hl t' ht'
    rw [subStep_bind_hash] at hl
    exact subStep_tripleOK_preserved code _ m t t' (hm.2 c l hl t' ht')

theorem runTriples_mapOK (code : InputCode) (q : ℚ) :
    ∀ (ts : List (F × Nat × Nat)) (m : InputMap F), mapOK m →
      (∀ t ∈ ts, tripleOK m.action_val t) →
      mapOK (runTriples code (fun _ => F32.fin q) ts m)
  | [], _, hm, _ => hm
  | t :: rest, m, hm, hts => by
      rw [runTriples]
      refine runTriples_mapOK code q rest _
        (subStep_mapOK code q m t hm (hts t (List.mem_cons_self t rest))) ?_
      intro t' ht'
      exact subStep_tripleOK_preserved code _ m t t'
        (hts t' (List.mem_cons_of_mem t ht'))

theorem modify_single_val_mapOK (code : InputCode) (q : ℚ) (m : InputMap F)
    (hm : mapOK m) : mapOK (m.modify_single_val code (fun _ => F32.fin q)) := by
  unfold InputMap.modify_single_val
  cases hl : alGet m.bind_hash code with
  | none =>
      simp only []
      split
      · exact hm
      · exact hm
  | some l => exact runTriples_mapOK code q l m hm (hm.2 code l hl)

theorem update_val_mapOK (code : InputCode) (v : F32) (hv : v.isFinite = true)
    (m : InputMap F) (hm : mapOK m) : mapOK (m.update_val code v) := by
  obtain ⟨q, hq⟩ := (F32.isFinite_iff v).mp hv
  subst hq
  exact modify_single_val_mapOK code.set_any q _
    (modify_single_val_mapOK code q m hm)

theorem applyAll_mapOK :
    ∀ (evs : List (InputCode × F32)), (∀ e ∈ evs, (e.2).isFinite = true) →
      ∀ (m : InputMap F), mapOK m → mapOK (applyAll evs m)
  | [], _, _, hm => hm
  | e :: rest, hfin, m, hm => by
      show mapOK (applyAll rest (m.update_val e.1 e.2))
      exact applyAll_mapOK rest
        (fun e' he' => hfin e' (List.mem_cons_of_mem e he'))
        _ (update_val_mapOK e.1 e.2 (hfin e (List.mem_cons_self e rest)) m hm)

theorem value_eq_recompute_of_mapOK (m : InputMap F) (hm : mapOK m) (a : F) :
    m.value a = recompute m a := by
  unfold InputMap.value recompute
  cases hav : alGet m.action_val a with
  | none => rfl
  | some av =>
      show av.value
        = (av.sub_values.map (fun p => listProd p.2)).foldl (fun x y => x + y) (F32.fin 0)
      obtain ⟨hall, hval⟩ := hm.1 a av hav
      have hmaps : av.sub_values.map (fun p => listProd p.2)
          = av.sub_values.map (fun p => p.1) := by
        apply List.map_congr_left
        intro p hp
        obtain ⟨h1, _, h3⟩ := hall p hp
        rw [listProd_fin_of_finite p.2 h3, h1]
      rw [hmaps]
      have hfins : ∀ x ∈ av.sub_values.map (fun p => p.1), x.isFinite = true := by
        intro x hx
        obtain ⟨p, hp, hpx⟩ := List.mem_map.mp hx
        obtain ⟨h1, _, _⟩ := hall p hp
        rw [← hpx, h1]
        rfl
      rw [foldl_add_fin _ hfins 0, hval]
      apply congrArg F32.fin
      rw [List.map_map]
      show (av.sub_values.map (fun p => F32.toQ p.1)).sum
        = 0 + (av.sub_values.map (fun p => F32.toQ p.1)).sum
      ring

/-! ### Construction: `new` establishes the invariant -/

theorem pushNewBind_alGet (a : F) (m : InputMap F) (a' : F) :
    alGet (pushNewBind a m).action_val a'
      = if a' = a
        then some (avPushBind ((alGet m.action_val a).getD ActionValue.dflt))
        else alGet m.action_val a' := by
  unfold pushNewBind
  by_cases h : a' = a
  · subst h
    rw [if_pos rfl]
    exact alGet_alModify_self _ _ _ _
  · rw [if_neg h]
    exact alGet_alModify_ne _ _ _ _ _ h

theorem pushSlot_alGet (a : F) (bi : Nat) (m : InputMap F) (a' : F) :
    alGet (pushSlot a bi m).action_val a'
      = if a' = a
        then some (avPushSlot bi ((alGet m.action_val a).getD ActionValue.dflt))
        else alGet m.action_val a' := by
  unfold pushSlot
  by_cases h : a' = a
  · subst h
    rw [if_pos rfl]
    exact alGet_alModify_self _ _ _ _
  · rw [if_neg h]
    exact alGet_alModify_ne _ _ _ _ _ h

theorem registerCode_action_val (code : InputCode) (a : F) (bi ci : Nat)
    (m : InputMap F) : (registerCode code a bi ci m).action_val = m.action_val := rfl

/-- Source `HashExt P h1 h2`: every subscription in `h2` was already in `h1` or
satisfies `P`. -/
def HashExt (P : F × Nat × Nat → Prop)
    (h1 h2 : List (InputCode × List (F × Nat × Nat))) : Prop :=
  ∀ c l, alGet h2 c = some l → ∀ t ∈ l,
    (∃ l0, alGet h1 c = some l0 ∧ t ∈ l0) ∨ P t

theorem HashExt_refl (P : F × Nat × Nat → Prop)
    (h : List (InputCode × List (F × Nat × Nat))) : HashExt P h h :=
  fun _ l hl t ht => Or.inl ⟨l, hl, ht⟩

theorem HashExt_of_eq (P : F × Nat × Nat → Prop)
    {h1 h2 : List (InputCode × List (F × Nat × Nat))} (h : h1 = h2) :
    HashExt P h1 h2 := by
  subst h
  exact HashExt_refl P h1

theorem HashExt_trans (P : F × Nat × Nat → Prop)
    {h1 h2 h3 : List (InputCode × List (F × Nat × Nat))}
    (e12 : HashExt P h1 h2) (e23 : HashExt P h2 h3) : HashExt P h1 h3 := by
  intro c l hl t ht
  rcases e23 c l hl t ht with ⟨l0, hl0, ht0⟩ | hp
  · exact e12 c l0 hl0 t ht0
  · exact Or.inr hp

theorem HashExt_mono {P Q : F × Nat × Nat → Prop} (hpq : ∀ t, P t → Q t)
    {h1 h2 : List (InputCode × List (F × Nat × Nat))} (e : HashExt P h1 h2) :
    HashExt Q h1 h2 := by
  intro c l hl t ht
  rcases e c l hl t ht with h | hp
  · exact Or.inl h
  · exact Or.inr (hpq t hp)

theorem registerCode_HashExt (code : InputCode) (a : F) (bi ci : Nat)
    (m : InputMap F) :
    HashExt (fun t => t = (a, bi, ci)) m.bind_hash
      (registerCode code a bi ci m).bind_hash := by
  intro c l hl t ht
  have hl' : alGet (alModify [] (fun l => l ++ [(a, bi, ci)]) m.bind_hash code) c
      = some l := hl
  by_cases hc : c = code
  · subst hc
    rw [alGet_alModify_self] at hl'
    have hleq : ((alGet m.bind_hash c).getD []) ++ [(a, bi, ci)] = l :=
      Option.some.inj hl'
    rw [← hleq] at ht
    rcases List.mem_append.mp ht with hmem | hmem
    · cases h0 : alGet m.bind_hash c with
      | none => rw [h0] at hmem; simp at hmem
      | some l0 =>
          rw [h0] at hmem
          simp only [Option.getD_some] at hmem
          exact Or.inl ⟨l0, rfl, hmem⟩
    · exact Or.inr (by simpa using hmem)
  · rw [alGet_alModify_ne _ _ _ _ _ hc] at hl'
    exact Or.inl ⟨l, hl', ht⟩

theorem addBindCodes_spec (a : F) (bind_i : Nat) :
    ∀ (bind : List InputCode) (code_i : Nat) (m : InputMap F)
      (pre : List (F32 × List F32)) (slots : List F32),
      pre.length = bind_i → slots.length = code_i →
      alGet m.action_val a
        = some ⟨F32.fin 0, false, false, pre ++ [(F32.fin 0, slots)]⟩ →
      (∀ a', alGet (addBindCodes a bind_i code_i bind m).action_val a'
        = if a' = a
          then some ⟨F32.fin 0, false, false,
                 pre ++ [(F32.fin 0, slots ++ bind.map (fun _ => F32.fin 0))]⟩
          else alGet m.action_val a') ∧
      HashExt (fun t => t.1 = a ∧ t.2.1 = bind_i ∧ code_i ≤ t.2.2 ∧
          t.2.2 < code_i + bind.length)
        m.bind_hash (addBindCodes a bind_i code_i bind m).bind_hash := by
  intro bind
  induction bind with
  | nil =>
      intro code_i m pre slots hpre hslots hav
      constructor
      · intro a'
        by_cases h : a' = a
        · subst h
          rw [if_pos rfl]
          show alGet m.action_val a' = _
          simpa using hav
        · rw [if_neg h]
          rfl
      · exact HashExt_refl _ _
  | cons code rest ih =>
      intro code_i m pre slots hpre hslots hav
      have h1 : alGet (pushSlot a bind_i m).action_val a
          = some ⟨F32.fin 0, false, false,
              pre ++ [(F32.fin 0, slots ++ [F32.fin 0])]⟩ := by
        rw [pushSlot_alGet, if_pos rfl, hav]
        simp only [Option.getD_some]
        show some (avPushSlot bind_i
          ⟨F32.fin 0, false, false, pre ++ [(F32.fin 0, slots)]⟩) = _
        unfold avPushSlot
        simp only []
        rw [← hpre, listModify_append_last]
      have h2 : alGet (registerCode code a bind_i code_i
          (pushSlot a bind_i m)).action_val a
          = some ⟨F32.fin 0, false, false,
              pre ++ [(F32.fin 0, slots ++ [F32.fin 0])]⟩ := by
        rw [registerCode_action_val]
        exact h1
      obtain ⟨ihA, ihB⟩ := ih (code_i + 1)
        (registerCode code a bind_i code_i (pushSlot a bind_i m)) pre
        (slots ++ [F32.fin 0]) hpre (by simp [hslots]) h2
      constructor
      · intro a'
        show alGet (addBindCodes a bind_i (code_i + 1) rest
          (registerCode code a bind_i code_i (pushSlot a bind_i m))).action_val a' = _
        rw [ihA a']
        by_cases h : a' = a
        · rw [if_pos h, if_pos h]
          have hlst : (slots ++ [F32.fin 0]) ++ rest.map (fun _ => F32.fin 0)
              = slots ++ (code :: rest).map (fun _ => F32.fin 0) := by
            rw [List.map_cons, ← List.append_cons]
          rw [hlst]
        · rw [if_neg h, if_neg h]
          rw [registerCode_action_val]
          rw [pushSlot_alGet, if_neg h]
      · show HashExt _ m.bind_hash (addBindCodes a bind_i (code_i + 1) rest
          (registerCode code a bind_i code_i (pushSlot a bind_i m))).bind_hash
        have e1 : HashExt (fun t => t.1 = a ∧ t.2.1 = bind_i ∧ code_i ≤ t.2.2 ∧
            t.2.2 < code_i + (code :: rest).length) m.bind_hash
            (registerCode code a bind_i code_i (pushSlot a bind_i m)).bind_hash := by
          refine HashExt_mono ?_ (registerCode_HashExt code a bind_i code_i
            (pushSlot a bind_i m))
          intro t htr
          subst htr
          refine ⟨rfl, rfl, Nat.le_refl _, ?_⟩
          simp [List.length_cons]
        have e2 : HashExt (fun t => t.1 = a ∧ t.2.1 = bind_i ∧ code_i ≤ t.2.2 ∧
            t.2.2 < code_i + (code :: rest).length)
            (registerCode code a bind_i code_i (pushSlot a bind_i m)).bind_hash
            (addBindCodes a bind_i (code_i + 1) rest
              (registerCode code a bind_i code_i (pushSlot a bind_i m))).bind_hash := by
          refine HashExt_mono ?_ ihB
          intro t ⟨ht1, ht2, ht3, ht4⟩
          refine ⟨ht1, ht2, by omega, ?_⟩
          rw [List.length_cons]
          omega
        exact HashExt_trans _ e1 e2

/-- Source `initBind b`: the per-binding state freshly registered for a bind `b` —
zero contribution and one zero slot per input code. -/
def initBind (b : List InputCode) : F32 × List F32 :=
  (F32.fin 0, b.map (fun _ => F32.fin 0))

theorem addActionBinds_spec (a : F) :
    ∀ (bl : List (List InputCode)) (bind_i : Nat) (m : InputMap F)
      (pre : List (F32 × List F32)),
      pre.length = bind_i →
      alGet m.action_val a = some ⟨F32.fin 0, false, false, pre⟩ →
      (∀ a', alGet (addActionBinds a bind_i bl m).action_val a'
        = if a' = a
          then some ⟨F32.fin 0, false, false, pre ++ bl.map initBind⟩
          else alGet m.action_val a') ∧
      HashExt (fun t => t.1 = a ∧ bind_i ≤ t.2.1 ∧ t.2.1 < bind_i + bl.length ∧
          t.2.2 < (bl.getD (t.2.1 - bind_i) []).length)
        m.bind_hash (addActionBinds a bind_i bl m).bind_hash := by
  intro bl
  induction bl with
  | nil =>
      intro bind_i m pre hpre hav
      constructor
      · intro a'
        by_cases h : a' = a
        · subst h
          rw [if_pos rfl]
          show alGet m.action_val a' = _
          simpa using hav
        · rw [if_neg h]
          rfl
      · exact HashExt_refl _ _
  | cons b rest ih =>
      intro bind_i m pre hpre hav
      have h1 : alGet (pushNewBind a m).action_val a
          = some ⟨F32.fin 0, false, false, pre ++ [(F32.fin 0, [])]⟩ := by
        rw [pushNewBind_alGet, if_pos rfl, hav]
        simp only [Option.getD_some]
        rfl
      obtain ⟨innerA, innerB⟩ := addBindCodes_spec a bind_i b 0 (pushNewBind a m)
        pre [] hpre rfl h1
      have h2 : alGet (addBindCodes a bind_i 0 b
          (pushNewBind a m)).action_val a
          = some ⟨F32.fin 0, false, false, (pre ++ [initBind b])⟩ := by
        rw [innerA a, if_pos rfl]
        show some (⟨F32.fin 0, false, false,
          pre ++ [(F32.fin 0, [] ++ b.map (fun _ => F32.fin 0))]⟩ : ActionValue) = _
        rw [List.nil_append]
        rfl
      obtain ⟨ihA, ihB⟩ := ih (bind_i + 1) (addBindCodes a bind_i 0 b
        (pushNewBind a m)) (pre ++ [initBind b]) (by simp [hpre]) h2
      constructor
      · intro a'
        show alGet (addActionBinds a (bind_i + 1) rest
          (addBindCodes a bind_i 0 b (pushNewBind a m))).action_val a' = _
        rw [ihA a']
        by_cases h : a' = a
        · rw [if_pos h, if_pos h]
          have hlst : (pre ++ [initBind b]) ++ rest.map initBind
              = pre ++ (b :: rest).map initBind := by
            rw [List.map_cons, ← List.append_cons]
          rw [hlst]
        · rw [if_neg h, if_neg h]
          rw [innerA a', if_neg h]
          rw [pushNewBind_alGet, if_neg h]
      · show HashExt _ m.bind_hash (addActionBinds a (bind_i + 1) rest
          (addBindCodes a bind_i 0 b (pushNewBind a m))).bind_hash
        have e0 : HashExt (fun t => t.1 = a ∧ bind_i ≤ t.2.1 ∧
            t.2.1 < bind_i + (b :: rest).length ∧
            t.2.2 < ((b :: rest).getD (t.2.1 - bind_i) []).length)
            m.bind_hash (pushNewBind a m).bind_hash :=
          HashExt_of_eq _ rfl
        have e1 : HashExt (fun t => t.1 = a ∧ bind_i ≤ t.2.1 ∧
            t.2.1 < bind_i + (b :: rest).length ∧
            t.2.2 < ((b :: rest).getD (t.2.1 - bind_i) []).length)
            (pushNewBind a m).bind_hash
            (addBindCodes a bind_i 0 b (pushNewBind a m)).bind_hash := by
          refine HashExt_mono ?_ innerB
          intro t ht
          obtain ⟨ht1, ht2, _, ht4⟩ := ht
          refine ⟨ht1, by omega, ?_, ?_⟩
          · rw [List.length_cons]
            omega
          · rw [ht2, Nat.sub_self]
            simpa using ht4
        have e2 : HashExt (fun t => t.1 = a ∧ bind_i ≤ t.2.1 ∧
            t.2.1 < bind_i + (b :: rest).length ∧
            t.2.2 < ((b :: rest).getD (t.2.1 - bind_i) []).length)
            (addBindCodes a bind_i 0 b (pushNewBind a m)).bind_hash
            (addActionBinds a (bind_i + 1) rest
              (addBindCodes a bind_i 0 b (pushNewBind a m))).bind_hash := by
          refine HashExt_mono ?_ ihB
          intro t ht
          obtain ⟨ht1, ht2, ht3, ht4⟩ := ht
          refine ⟨ht1, by omega, ?_, ?_⟩
          · rw [List.length_cons]
            omega
          · obtain ⟨k, hk⟩ : ∃ k, t.2.1 - bind_i = k + 1 :=
              ⟨t.2.1 - bind_i - 1, by omega⟩
            rw [hk]
            have hk' : t.2.1 - (bind_i + 1) = k := by omega
            rw [hk'] at ht4
            simpa using ht4
        exact HashExt_trans _ e0 (HashExt_trans _ e1 e2)

theorem addActionBinds_cons (a : F) (bi : Nat) (b : List InputCode)
    (rest : List (List InputCode)) (m : InputMap F) :
    addActionBinds a bi (b :: rest) m
      = addActionBinds a (bi + 1) rest (addBindCodes a bi 0 b (pushNewBind a m)) := rfl

theorem add_binds_cons (a : F) (bl : List (List InputCode)) (rest : Binds F)
    (m : InputMap F) :
    InputMap.add_binds ((a, bl) :: rest) m
      = InputMap.add_binds rest (addActionBinds a 0 bl m) := rfl

theorem initBind_contribOK (b : List InputCode) (hb : b ≠ []) :
    contribOK (initBind b) := by
  refine ⟨?_, ?_, ?_⟩
  · show F32.fin 0 = F32.fin (((b.map (fun _ => F32.fin 0)).map F32.toQ).prod)
    rw [List.map_map]
    apply congrArg F32.fin
    cases b with
    | nil => exact absurd rfl hb
    | cons x rest =>
        rw [List.map_cons, List.prod_cons]
        show 0 = F32.toQ (F32.fin 0) * _
        show 0 = 0 * _
        rw [zero_mul]
  · show b.map (fun _ => F32.fin 0) ≠ []
    simpa using hb
  · intro x hx
    obtain ⟨y, _, hy⟩ := List.mem_map.mp hx
    rw [← hy]
    rfl

theorem initAV_avOK (bl : List (List InputCode)) (hne : ∀ b ∈ bl, b ≠ []) :
    avOK ⟨F32.fin 0, false, false, bl.map initBind⟩ := by
  constructor
  · intro p hp
    obtain ⟨b, hb, hbp⟩ := List.mem_map.mp hp
    rw [← hbp]
    exact initBind_contribOK b (hne b hb)
  · show F32.fin 0 = F32.fin (((bl.map initBind).map (fun p => F32.toQ p.1)).sum)
    rw [List.map_map]
    apply congrArg F32.fin
    rw [eq_comm]
    apply List.sum_eq_zero
    intro x hx
    obtain ⟨y, _, hy⟩ := List.mem_map.mp hx
    rw [← hy]
    rfl

theorem add_binds_mapOK :
    ∀ (binds : Binds F) (m : InputMap F),
      mapOK m → (∀ p ∈ binds, alGet m.action_val p.1 = none) →
      (binds.map Prod.fst).Nodup →
      (∀ p ∈ binds, ∀ b ∈ p.2, b ≠ []) →
      mapOK (InputMap.add_binds binds m) := by
  intro binds
  induction binds with
  | nil => exact fun m hm _ _ _ => hm
  | cons p rest ih =>
      rcases p with ⟨a, bl⟩
      intro m hm hfresh hnd hne
      have hfa : alGet m.action_val a = none :=
        hfresh (a, bl) (List.mem_cons_self _ _)
      have hndrest : (rest.map Prod.fst).Nodup := (List.nodup_cons.mp hnd).2
      have hanotin : a ∉ rest.map Prod.fst := (List.nodup_cons.mp hnd).1
      have hnerest : ∀ p ∈ rest, ∀ b ∈ p.2, b ≠ [] :=
        fun p hp => hne p (List.mem_cons_of_mem _ hp)
      rw [add_binds_cons]
      cases bl with
      | nil =>
          show mapOK (InputMap.add_binds rest m)
          exact ih m hm (fun p hp => hfresh p (List.mem_cons_of_mem _ hp))
            hndrest hnerest
      | cons b bl' =>
          have h1 : alGet (pushNewBind a m).action_val a
              = some ⟨F32.fin 0, false, false, [] ++ [(F32.fin 0, [])]⟩ := by
            rw [pushNewBind_alGet, if_pos rfl, hfa]
            rfl
          obtain ⟨innerA, innerB⟩ := addBindCodes_spec a 0 b 0 (pushNewBind a m)
            [] [] rfl rfl h1
          have h2 : alGet (addBindCodes a 0 0 b
              (pushNewBind a m)).action_val a
              = some ⟨F32.fin 0, false, false, [initBind b]⟩ := by
            rw [innerA a, if_pos rfl]
            show some (⟨F32.fin 0, false, false,
              [] ++ [(F32.fin 0, [] ++ b.map (fun _ => F32.fin 0))]⟩ : ActionValue) = _
            rw [List.nil_append, List.nil_append]
            rfl
          obtain ⟨midA, midB⟩ := addActionBinds_spec a bl' 1
            (addBindCodes a 0 0 b (pushNewBind a m)) [initBind b] rfl h2
          -- the combined entry lookup for the processed action group
          have hlook : ∀ a', alGet (addActionBinds a 1 bl'
              (addBindCodes a 0 0 b (pushNewBind a m))).action_val a'
              = if a' = a
                then some ⟨F32.fin 0, false, false, (b :: bl').map initBind⟩
                else alGet m.action_val a' := by
            intro a'
            rw [midA a']
            by_cases h : a' = a
            · rw [if_pos h, if_pos h]
              simp
            · rw [if_neg h, if_neg h]
              rw [innerA a', if_neg h]
              rw [pushNewBind_alGet, if_neg h]
          -- the combined subscription extension
          have eall : HashExt (fun t => t.1 = a ∧ t.2.1 < (b :: bl').length ∧
              t.2.2 < ((b :: bl').getD t.2.1 []).length)
              m.bind_hash
              (addActionBinds a 1 bl'
                (addBindCodes a 0 0 b (pushNewBind a m))).bind_hash := by
            have e1 : HashExt (fun t => t.1 = a ∧ t.2.1 < (b :: bl').length ∧
                t.2.2 < ((b :: bl').getD t.2.1 []).length)
                m.bind_hash
                (addBindCodes a 0 0 b (pushNewBind a m)).bind_hash := by
              refine HashExt_mono ?_ innerB
              intro t ht
              obtain ⟨ht1, ht2, _, ht4⟩ := ht
              refine ⟨ht1, ?_, ?_⟩
              · rw [ht2, List.length_cons]
                omega
              · rw [ht2]
                simpa using ht4
            have e2 : HashExt (fun t => t.1 = a ∧ t.2.1 < (b :: bl').length ∧
                t.2.2 < ((b :: bl').getD t.2.1 []).length)
                (addBindCodes a 0 0 b (pushNewBind a m)).bind_hash
                (addActionBinds a 1 bl'
                  (addBindCodes a 0 0 b (pushNewBind a m))).bind_hash := by
              refine HashExt_mono ?_ midB
              intro t ht
              obtain ⟨ht1, ht2, ht3, ht4⟩ := ht
              refine ⟨ht1, ?_, ?_⟩
              · rw [List.length_cons]
                omega
              · obtain ⟨k, hk⟩ : ∃ k, t.2.1 = k + 1 := ⟨t.2.1 - 1, by omega⟩
                rw [hk]
                have hk' : t.2.1 - 1 = k := by omega
                rw [hk'] at ht4
                simpa using ht4
            exact HashExt_trans _ e1 e2
          have hm3 : mapOK (addActionBinds a 1 bl'
              (addBindCodes a 0 0 b (pushNewBind a m))) := by
            constructor
            · intro a' av' hget
              rw [hlook a'] at hget
              by_cases h : a' = a
              · rw [if_pos h] at hget
                have hav' : av' = ⟨F32.fin 0, false, false, (b :: bl').map initBind⟩ :=
                  (Option.some.inj hget).symm
                rw [hav']
                exact initAV_avOK (b :: bl') (hne (a, b :: bl') (List.mem_cons_self _ _))
              · rw [if_neg h] at hget
                exact hm.1 a' av' hget
            · intro c l hl t ht
              rcases eall c l hl t ht with ⟨l0, hl0, ht0⟩ | hP
              · obtain ⟨av, hava, hr1, hr2⟩ := hm.2 c l0 hl0 t ht0
                have htne : t.1 ≠ a := by
                  intro hteq
                  rw [hteq, hfa] at hava
                  exact Option.noConfusion hava
                refine ⟨av, ?_, hr1, hr2⟩
                rw [hlook t.1, if_neg htne]
                exact hava
              · obtain ⟨hP1, hP2, hP3⟩ := hP
                refine ⟨⟨F32.fin 0, false, false, (b :: bl').map initBind⟩, ?_, ?_, ?_⟩
                · rw [hlook t.1, if_pos hP1]
                · rw [List.length_map]
                  exact hP2
                · show t.2.2 < ((((b :: bl').map initBind).getD t.2.1
                    (F32.fin 0, [])).2).length
                  have hdflt : (F32.fin 0, ([] : List F32)) = initBind [] := rfl
                  rw [hdflt, getD_map_lt initBind _ t.2.1 (initBind []) [] hP2]
                  show t.2.2 < (((b :: bl').getD t.2.1 []).map (fun _ => F32.fin 0)).length
                  rw [List.length_map]
                  exact hP3
          have hfresh3 : ∀ p ∈ rest, alGet (addActionBinds a 1 bl'
              (addBindCodes a 0 0 b (pushNewBind a m))).action_val p.1 = none := by
            intro p hp
            have hne' : p.1 ≠ a := by
              intro heq
              exact hanotin (heq ▸ List.mem_map_of_mem Prod.fst hp)
            rw [hlook p.1, if_neg hne']
            exact hfresh p (List.mem_cons_of_mem _ hp)
          rw [addActionBinds_cons]
          exact ih _ hm3 hfresh3 hndrest hnerest

theorem dflt_mapOK : mapOK (InputMap.dflt : InputMap F) := by
  constructor
  · intro a av h
    exact Option.noConfusion h
  · intro c l h
    exact Option.noConfusion h

theorem new_mapOK (binds : Binds F) (hnd : (binds.map Prod.fst).Nodup)
    (hne : ∀ p ∈ binds, ∀ b ∈ p.2, b ≠ []) :
    mapOK (InputMap.new binds) :=
  add_binds_mapOK binds InputMap.dflt dflt_mapOK (fun _ _ => rfl) hnd hne

/-- The event sequence of the C2 counterexample: a platform-supplied `NaN`
followed by an ordinary `2.0` on the same key. -/
def exC2evs : List (InputCode × F32) :=
  [((DeviceInput.Key 1).with_id 0, F32.nan),
   ((DeviceInput.Key 1).with_id 0, F32.fin 2)]

/-- C2 counterexample: after applying `NaN` and then `2.0` to the single
bound key, the incrementally maintained aggregate is stuck at `NaN` (the
delta `new - old` is `NaN - NaN`), while the from-scratch recomputation over
the final cached slot values gives `2.0` — the claimed equality fails for
this apply sequence. -/
theorem claim2_counterexample :
    (applyAll exC2evs exKey0).value 0 = F32.nan ∧
    recompute (applyAll exC2evs exKey0) 0 = F32.fin 2 ∧
    (applyAll exC2evs exKey0).value 0 ≠ recompute (applyAll exC2evs exKey0) 0 := by
  decide

/-- C2 amended: for every bind table whose actions are pairwise distinct and
whose bindings are all nonempty AND-groups, and every finite sequence of
apply calls carrying finite (non-`NaN`, non-infinite) values, the
incrementally maintained `value(A)` equals the from-scratch recomputation
over the final cached slot values — the sum over `A`'s bindings of the
product of each binding's cached slot values.  (The counterexample shows the
original unconditional claim fails when a `NaN` enters the cache; an
all-empty AND-group or a duplicated action in the table breaks it too.) -/
theorem claim2_theorem (binds : Binds F) (evs : List (InputCode × F32)) (a : F)
    (hnd : (binds.map Prod.fst).Nodup)
    (hne : ∀ p ∈ binds, ∀ b ∈ p.2, b ≠ [])
    (hfin : ∀ e ∈ evs, (e.2).isFinite = true) :
    (applyAll evs (InputMap.new binds)).value a
      = recompute (applyAll evs (InputMap.new binds)) a :=
  value_eq_recompute_of_mapOK _
    (applyAll_mapOK evs hfin _ (new_mapOK binds hnd hne)) a

/-- The apply sequence of the C2 witness. -/
def exC2wevs : List (InputCode × F32) :=
  [((DeviceInput.Key 1).with_id 0, F32.fin 1)]

/-- Witness for C2 at the concrete one-key table and a single apply of
`1.0`. -/
theorem claim2_witness :
    ((exKeyBinds.map Prod.fst).Nodup ∧
     (∀ p ∈ exKeyBinds, ∀ b ∈ p.2, b ≠ []) ∧
     (∀ e ∈ exC2wevs, (e.2).isFinite = true)) ∧
    (applyAll exC2wevs (InputMap.new exKeyBinds)).value 0
      = recompute (applyAll exC2wevs (InputMap.new exKeyBinds)) 0 :=
  ⟨⟨by decide, by decide, by decide⟩,
   claim2_theorem exKeyBinds exC2wevs 0 (by decide) (by decide) (by decide)⟩
